import Mathlib

/-!
Verification of the one-billion-rows aggregation pipeline (src/main.rs).

The program is embedded shallowly:

* the input file and all text are byte lists (`List Nat`, each element a byte);
* Rust `f32` values are modelled exactly by `F32`: a finite IEEE binary32
  value is carried as the rational number it denotes, and every operation
  rounds its exact rational result to nearest-even via `f32roundQ`, as the
  hardware does; infinities and NaN are explicit constructors
  (negative zero is not distinguished: as proved reachable states of this
  program never store a negative zero, see the comments on `f32roundQ`);
* fallible code (panics via `expect`/`unwrap`) returns `Option` or a
  dedicated result type;
* the `HashMap<String, CityEntry>` is an association list `AMap`; hash
  iteration order is fixed to insertion order, which is harmless because
  all per-key reasoning is order-independent and the formatter sorts keys.
-/

set_option maxRecDepth 8000

/-- Word: converts an ASCII Lean string literal to the byte list it denotes.
Used only to state concrete inputs and outputs readably. -/
def str2bytes (s : String) : List Nat := s.data.map Char.toNat

/-- Word: ASCII decimal digit test, bytes 48..57. -/
def isDigit (b : Nat) : Bool := 48 ≤ b && b ≤ 57

/-- Word: splits a byte list at every occurrence of `sep`, keeping empty
parts; models Rust `str::split` (so `splitSep 10 "a\nb\n" = [a, b, empty]`). -/
def splitSep (sep : Nat) : List Nat → List (List Nat)
  | [] => [[]]
  | b :: rest =>
    if b = sep then [] :: splitSep sep rest
    else
      match splitSep sep rest with
      | [] => [[b]]
      | p :: ps => (b :: p) :: ps

/-- Word: drops one trailing carriage return, as Rust `str::lines` does to
every line that was terminated by a newline. -/
def stripCR (l : List Nat) : List Nat :=
  if l.getLast? = some 13 then l.dropLast else l

/-- Word: models Rust `str::lines`: split on byte 10; a trailing final
newline produces no empty last line; every newline-terminated line loses
one trailing carriage return (the final unterminated line, if any, keeps
its bytes unchanged). -/
def linesOf (s : List Nat) : List (List Nat) :=
  let parts := splitSep 10 s
  let body := parts.dropLast.map stripCR
  match parts.getLast? with
  | some [] => body
  | some l => body ++ [l]
  | none => body

/-- Word: exact model of an `f32` value.  A finite float is carried as the
rational it denotes; `inf true` is negative infinity. -/
inductive F32 where
  | finite (val : ℚ)
  | inf (neg : Bool)
  | nan
deriving DecidableEq, Repr

/-- Word: integer power of two as a rational. -/
def pow2 (e : ℤ) : ℚ := if 0 ≤ e then ((2 : ℚ) ^ e.toNat) else 1 / (2 : ℚ) ^ (-e).toNat

/-- Word: integer power of ten as a rational. -/
def qpow10 (e : ℤ) : ℚ := if 0 ≤ e then ((10 : ℚ) ^ e.toNat) else 1 / (10 : ℚ) ^ (-e).toNat

/-- Word: base-two logarithm of a natural number (`Nat.log2`), written
with a structural iteration bound so that it evaluates inside the kernel;
the bound never runs out because halving reaches `1` within `n` steps. -/
def natLog2Aux : Nat → Nat → Nat
  | 0, _ => 0
  | fuel + 1, n => if n ≥ 2 then natLog2Aux fuel (n / 2) + 1 else 0

/-- Word: base-two logarithm of a natural number. -/
def natLog2 (n : Nat) : Nat := natLog2Aux n n

/-- Word: for nonzero `q`, the exponent `e` with `2 ^ e ≤ |q| < 2 ^ (e+1)`. -/
def qlog2 (q : ℚ) : ℤ :=
  let a := q.num.natAbs
  let b := q.den
  let e0 : ℤ := (natLog2 a : ℤ) - (natLog2 b : ℤ)
  if pow2 e0 ≤ |q| then e0 else e0 - 1

/-- Word: rounds a rational to the nearest integer, ties to even. -/
def rndHalfEven (q : ℚ) : ℤ :=
  let f : ℤ := ⌊q⌋
  let r : ℚ := q - (f : ℚ)
  if r < 1 / 2 then f
  else if 1 / 2 < r then f + 1
  else if f % 2 = 0 then f else f + 1

/-- Word: largest finite binary32 value, `(2 - 2 ^ (-23)) * 2 ^ 127`. -/
def maxFinite : ℚ := (2 ^ 24 - 1) * 2 ^ 104

/-- Word: IEEE-754 binary32 rounding, round-to-nearest ties-to-even: the
significand granule is `2 ^ g` with `g = max (exponent - 23) (-149)`
(normal and subnormal range), and a rounded magnitude beyond the largest
finite value overflows to infinity.  The two IEEE zeroes are collapsed
into `finite 0`: in this program a stored sum, min or max is never a
negative zero (sums start at `+0.0` and `+0.0 + -0.0 = +0.0`; min and max
start at `0.0` and the strict-compare updates never replace it by `-0.0`),
so the collapse is invisible. -/
def f32roundQ (q : ℚ) : F32 :=
  if q = 0 then F32.finite 0
  else
    let g : ℤ := max (qlog2 q - 23) (-149)
    let m : ℤ := rndHalfEven (q / pow2 g)
    let v : ℚ := (m : ℚ) * pow2 g
    if maxFinite < |v| then F32.inf (decide (q < 0)) else F32.finite v

/-- Word: exact model of `f32` addition. -/
def F32.add : F32 → F32 → F32
  | nan, _ => nan
  | _, nan => nan
  | inf s, inf t => if s = t then inf s else nan
  | inf s, finite _ => inf s
  | finite _, inf t => inf t
  | finite a, finite b => f32roundQ (a + b)

/-- Word: exact model of the `f32` strict `<` comparison; any comparison
with NaN is false. -/
def F32.lt : F32 → F32 → Bool
  | nan, _ => false
  | _, nan => false
  | inf s, inf t => s && !t
  | inf s, finite _ => s
  | finite _, inf t => !t
  | finite a, finite b => decide (a < b)

/-- Word: exact model of `f32` division (used for `sum / count`). -/
def F32.div : F32 → F32 → F32
  | nan, _ => nan
  | _, nan => nan
  | inf _, inf _ => nan
  | inf s, finite b => inf (xor s (decide (b < 0)))
  | finite _, inf _ => finite 0
  | finite a, finite b =>
    if b = 0 then (if a = 0 then nan else inf (decide (a < 0)))
    else f32roundQ (a / b)

/-- Word: the `usize as f32` cast (round to nearest, ties to even). -/
def f32ofNat (n : Nat) : F32 := f32roundQ (n : ℚ)

/-- Word: finiteness test on the `f32` model. -/
def F32.isFinite : F32 → Bool
  | finite _ => true
  | _ => false

/-- Word: NaN test on the `f32` model. -/
def F32.isNaN : F32 → Bool
  | nan => true
  | _ => false

/-- Word: numeric value of a list of ASCII digits, most significant first. -/
def digitsVal (ds : List Nat) : ℕ := ds.foldl (fun a d => a * 10 + (d - 48)) 0

/-- Word: ASCII lower-casing of one byte. -/
def lowerByte (b : Nat) : Nat := if 65 ≤ b && b ≤ 90 then b + 32 else b

/-- Word: case-insensitive comparison against an all-lowercase keyword. -/
def kwEq (t : List Nat) (kw : List Nat) : Bool := decide (t.map lowerByte = kw)

/-- Word: strips one optional leading sign byte, returning whether it was
a minus. -/
def stripSign (t : List Nat) : Bool × List Nat :=
  match t with
  | 43 :: r => (false, r)
  | 45 :: r => (true, r)
  | r => (false, r)

/-- Word: parses the part after the mantissa of a float literal: either
nothing, or `e`/`E`, an optional sign and a nonempty digit string, per the
grammar documented for Rust `f32::from_str`.  Anything else rejects. -/
def parseExpPart (t : List Nat) : Option ℤ :=
  match t with
  | [] => some 0
  | e :: r =>
    if e = 101 || e = 69 then
      let sr := stripSign r
      if sr.2 ≠ [] && sr.2.all isDigit then
        some (if sr.1 then -(digitsVal sr.2 : ℤ) else (digitsVal sr.2 : ℤ))
      else none
    else none

/-- Word: parses the number alternative of the Rust `f32::from_str`
grammar (after the optional sign): `Digit+ | Digit+ . Digit* | Digit* .
Digit+`, each optionally followed by an exponent; the exact decimal value
is then rounded to binary32, which is what Rust's correctly-rounded
`dec2flt` produces. -/
def parseNumber (neg : Bool) (t : List Nat) : Option F32 :=
  let intPart := t.takeWhile isDigit
  let r1 := t.dropWhile isDigit
  match r1 with
  | 46 :: r2 =>
    let frac := r2.takeWhile isDigit
    let r3 := r2.dropWhile isDigit
    if intPart = [] && frac = [] then none
    else
      match parseExpPart r3 with
      | some ex =>
        let mant : ℤ := (digitsVal (intPart ++ frac) : ℤ)
        let q : ℚ := (mant : ℚ) * qpow10 (ex - frac.length)
        some (f32roundQ (if neg then -q else q))
      | none => none
  | _ =>
    if intPart = [] then none
    else
      match parseExpPart r1 with
      | some ex =>
        let q : ℚ := ((digitsVal intPart : ℕ) : ℚ) * qpow10 ex
        some (f32roundQ (if neg then -q else q))
      | none => none

/-- Word: model of `str::parse::<f32>` on a byte string, following the
grammar documented for `f32::from_str`: optional sign, then `inf`,
`infinity`, `nan` (case-insensitive) or a number. -/
def f32_from_str (s : List Nat) : Option F32 :=
  let sr := stripSign s
  if kwEq sr.2 [105, 110, 102] then some (F32.inf sr.1)
  else if kwEq sr.2 [105, 110, 102, 105, 110, 105, 116, 121] then some (F32.inf sr.1)
  else if kwEq sr.2 [110, 97, 110] then some F32.nan
  else parseNumber sr.1 sr.2

/-- Word: the per-key accumulator, struct `CityEntry` in src/main.rs. -/
structure CityEntry where
  min : F32
  max : F32
  sum : F32
  count : Nat
deriving DecidableEq, Repr

/-- Word: Rust `CityEntry::default()`: every `f32` field is `0.0` and the
count is `0`. -/
def CityEntry.default : CityEntry :=
  { min := F32.finite 0, max := F32.finite 0, sum := F32.finite 0, count := 0 }

/-- Word: the worker map `HashMap<String, CityEntry>` as an association
list from key bytes to accumulators. -/
abbrev AMap := List (List Nat × CityEntry)

/-- Word: lookup in an association map (first matching key). -/
def alookup : AMap → List Nat → Option CityEntry
  | [], _ => none
  | kv :: rest, k => if kv.1 = k then some kv.2 else alookup rest k

/-- Word: in-place modification of the entry stored under key `k`
(models `HashMap::get_mut`). -/
def aupdate (m : AMap) (k : List Nat) (f : CityEntry → CityEntry) : AMap :=
  m.map (fun kv => if kv.1 = k then (kv.1, f kv.2) else kv)

/-- Word: the per-line accumulator update in `process_lines`:
`sum += value; count += 1;` then `if max < value` and `if min > value`
with the strict `f32` comparison, in the source's order. -/
def updateEntry (e : CityEntry) (value : F32) : CityEntry :=
  let e1 : CityEntry := { e with sum := F32.add e.sum value, count := e.count + 1 }
  let e2 : CityEntry := if F32.lt e1.max value then { e1 with max := value } else e1
  if F32.lt value e2.min then { e2 with min := value } else e2

/-- Word: the loop body of `process_lines` for one line: split on `;`,
first field is the city (`split` always yields a first part), second
field must exist and parse as `f32` (otherwise the `expect` panics,
modelled as `none`); any later fields are not consumed.  A missing key
lazily inserts `CityEntry::default()`. -/
def process_line (m : AMap) (line : List Nat) : Option AMap :=
  match splitSep 59 line with
  | [] => none
  | city :: rest =>
    match rest.head? with
    | none => none
    | some v =>
      match f32_from_str v with
      | none => none
      | some value =>
        let m2 := if (alookup m city).isSome then m else m ++ [(city, CityEntry.default)]
        some (aupdate m2 city (fun e => updateEntry e value))

/-- Word: a worker's fold of `process_line` over the lines it receives,
starting from the empty map (used to state line-level properties). -/
def worker_on_lines (ls : List (List Nat)) : Option AMap :=
  ls.foldlM process_line []

/-- Word: processing of one received chunk: `for line in chunk.lines()`. -/
def process_chunk (m : AMap) (chunk : List Nat) : Option AMap :=
  (linesOf chunk).foldlM process_line m

/-- Word: `process_lines` of src/main.rs for one worker, given the list of
chunks that worker receives from the channel. -/
def process_lines (chunks : List (List Nat)) : Option AMap :=
  chunks.foldlM process_chunk []

/-- Word: the fixed block capacity, `BLOCK_SIZE` in src/main.rs. -/
def BLOCK_SIZE : Nat := 4096

/-- Word: index of the last newline byte in a block; this is what
`full_size - 1 - reversed.position(c == newline)` computes in
`StrBuffer::read_from`, and `none` models the `expect` panic path. -/
def last_nl_idx : List Nat → Option Nat
  | [] => none
  | b :: rest =>
    match last_nl_idx rest with
    | some i => some (i + 1)
    | none => if b = 10 then some 0 else none

/-- Word: UTF-8 continuation byte test. -/
def contByte (b : Nat) : Bool := 128 ≤ b && b ≤ 191

/-- Word: model of `std::str::from_utf8(..).is_ok()`: standard UTF-8
validation with the usual shortest-form, surrogate and upper-bound
restrictions. -/
def validUtf8 : List Nat → Bool
  | [] => true
  | b :: rest =>
    if b ≤ 127 then validUtf8 rest
    else if b < 194 then false
    else if b ≤ 223 then
      match rest with
      | c1 :: r => contByte c1 && validUtf8 r
      | [] => false
    else if b ≤ 239 then
      match rest with
      | c1 :: c2 :: r =>
        (if b = 224 then 160 ≤ c1 && c1 ≤ 191
         else if b = 237 then 128 ≤ c1 && c1 ≤ 159
         else contByte c1) && contByte c2 && validUtf8 r
      | _ => false
    else if b ≤ 244 then
      match rest with
      | c1 :: c2 :: c3 :: r =>
        (if b = 240 then 144 ≤ c1 && c1 ≤ 191
         else if b = 244 then 128 ≤ c1 && c1 ≤ 143
         else contByte c1) && contByte c2 && contByte c3 && validUtf8 r
      | _ => false
    else false

/-- Word: result of one `StrBuffer::read_from` call: a chunk plus the
remaining file after the seek, end of input, or a panic
(no newline in the block, or invalid UTF-8). -/
inductive ReadResult where
  | chunk (data : List Nat) (rest : List Nat)
  | eof
  | fault
deriving DecidableEq, Repr

/-- Word: `StrBuffer::read_from`.  The file is modelled by its unread
suffix `rem`; a read takes up to `BLOCK_SIZE` bytes, zero bytes read is
end of input, a block without a newline is a panic, the valid region is
everything up to and including the last newline and must be valid UTF-8,
and the seek makes the next read resume right after that newline. -/
def read_from (rem : List Nat) : ReadResult :=
  if (rem.take BLOCK_SIZE).isEmpty then ReadResult.eof
  else
    match last_nl_idx (rem.take BLOCK_SIZE) with
    | none => ReadResult.fault
    | some lastNl =>
      if validUtf8 ((rem.take BLOCK_SIZE).take (lastNl + 1)) then
        ReadResult.chunk ((rem.take BLOCK_SIZE).take (lastNl + 1)) (rem.drop (lastNl + 1))
      else ReadResult.fault

/-- Word: the loop in `produce_text_chunks` with an explicit bound on the
number of iterations: repeatedly call `read_from` until end of input,
collecting the chunks in order; any panic aborts the producer, modelled
as `none`.  The bound exists only to make the recursion structural; it
never runs out because every successful read consumes at least one byte
(`read_from_shrink`). -/
def read_all_fuel (fuel : Nat) (rem : List Nat) : Option (List (List Nat)) :=
  match fuel with
  | 0 => none
  | fuel + 1 =>
    match read_from rem with
    | ReadResult.eof => some []
    | ReadResult.fault => none
    | ReadResult.chunk c rest => (read_all_fuel fuel rest).map (fun cs => c :: cs)

/-- Word: the loop in `produce_text_chunks`: the file length plus one
iterations always suffice. -/
def read_all (rem : List Nat) : Option (List (List Nat)) :=
  read_all_fuel (rem.length + 1) rem

/-- Word: the per-key merge in `combine_results`:
`sum += p.sum; count += p.count;` then `if full.min > p.min` and
`if full.max < p.max`, in the source's order. -/
def mergeEntry (fd pd : CityEntry) : CityEntry :=
  let e1 : CityEntry := { fd with sum := F32.add fd.sum pd.sum, count := fd.count + pd.count }
  let e2 : CityEntry := if F32.lt pd.min e1.min then { e1 with min := pd.min } else e1
  if F32.lt e2.max pd.max then { e2 with max := pd.max } else e2

/-- Word: one step of the merge loop: `entry(k).and_modify(merge).or_insert(p_data)`. -/
def combineOne (g : AMap) (kv : List Nat × CityEntry) : AMap :=
  if (alookup g kv.1).isSome then aupdate g kv.1 (fun fd => mergeEntry fd kv.2)
  else g ++ [kv]

/-- Word: merging one worker's whole map into the global map. -/
def combine_worker (g : AMap) (w : AMap) : AMap := w.foldl combineOne g

/-- Word: `combine_results`: fold every worker's map into an initially
empty global map, in the order the worker handles are joined. -/
def combine_results (ws : List AMap) : AMap := ws.foldl combine_worker []

/-- Word: decimal digits of a natural number, as ASCII bytes, with a
structural iteration bound so that it evaluates inside the kernel; the
bound never runs out because dividing by ten reaches a single digit
within `n` steps. -/
def natDecAux : Nat → Nat → List Nat
  | 0, n => [48 + n % 10]
  | fuel + 1, n => if n < 10 then [48 + n] else natDecAux fuel (n / 10) ++ [48 + n % 10]

/-- Word: decimal digits of a natural number, as ASCII bytes. -/
def natDec (n : Nat) : List Nat := natDecAux n n

/-- Word: Rust's fixed-precision float formatting with one fractional
digit, for example the format `5.0/0.1` of `write!("...=0.1/...")`:
the exact value is rounded to tenths with ties to even, the sign of a
negative value is kept (Rust prints `-0.0` for tiny negatives), and the
special values print as `inf`, `-inf` and `NaN`. -/
def fmtNum (x : F32) : List Nat :=
  match x with
  | F32.nan => [78, 97, 78]
  | F32.inf true => [45, 105, 110, 102]
  | F32.inf false => [105, 110, 102]
  | F32.finite q =>
    let d : ℤ := rndHalfEven (|q| * 10)
    (if q < 0 then [45] else []) ++ natDec (d.toNat / 10) ++ [46, 48 + d.toNat % 10]

/-- Word: byte-wise lexicographic order on keys, the `Ord` instance Rust's
`sort_unstable` uses on `&String`. -/
def bytesLe : List Nat → List Nat → Bool
  | [], _ => true
  | _ :: _, [] => false
  | x :: xs, y :: ys => if x < y then true else if y < x then false else bytesLe xs ys

/-- Word: `cities.sort_unstable()`: sorts the key list ascending in
byte-wise lexicographic order (on the distinct keys of a map any sorting
algorithm produces this same list). -/
def sortKeys (ks : List (List Nat)) : List (List Nat) :=
  List.insertionSort (fun a b => bytesLe a b = true) ks

/-- Word: one output entry `<name>=<min>/<avg>/<max>` where the average is
computed as `sum / count as f32`; the `none` branch is unreachable because
the formatter only renders names drawn from the map itself. -/
def render_entry (g : AMap) (name : List Nat) : List Nat :=
  match alookup g name with
  | some e =>
    name ++ [61] ++ fmtNum e.min ++ [47]
      ++ fmtNum (F32.div e.sum (f32ofNat e.count)) ++ [47] ++ fmtNum e.max
  | none => name ++ [61]

/-- Word: the output loop of `calculate`: brace, the sorted entries
separated by a comma-space written under a first-entry flag, brace. -/
def format_output (g : AMap) : List Nat :=
  let cities := sortKeys (g.map Prod.fst)
  let body := (cities.foldl
    (fun acc name =>
      (acc.1 ++ (if acc.2 then ([] : List Nat) else [44, 32]) ++ render_entry g name, false))
    (([] : List Nat), true)).1
  [123] ++ body ++ [125]

/-- Word: the sequential tail of `calculate` once every worker's map is
known: join the workers (any worker panic aborts, modelled by `none` from
`process_lines`), merge, and format. -/
def calculate_model (workerChunks : List (List (List Nat))) : Option (List Nat) := do
  let ms ← workerChunks.mapM process_lines
  pure (format_output (combine_results ms))

/-- Word: the whole pipeline when a single worker receives every chunk
(thread count 1, or any run in which one worker wins every receive). -/
def run_single_thread (file : List Nat) : Option (List Nat) := do
  let cs ← read_all file
  calculate_model [cs]

/-- Word: the pipeline invoked with `--threads 0`: the spawn loop runs zero
times, so no worker exists, no chunk is ever consumed, and the coordinator
merges an empty vector of worker results; the producer thread is never
joined, so the file's contents cannot influence the output. -/
def run_zero_threads (_file : List Nat) : Option (List Nat) := calculate_model []

/-- Word: the aggregation stage for an arbitrary distribution of the input
lines among workers: each inner list is the line sequence one worker
processes; the workers' maps are then merged in list order. -/
def run_line_partition (P : List (List (List Nat))) : Option AMap := do
  let ms ← P.mapM worker_on_lines
  pure (combine_results ms)

/-- Word: spec-side predicate (written from the spec's grammar, not from
the code): the value grammar of section 6 with the fixed fractional-digit
count `F = 1`, namely an optional minus sign, a nonempty digit run, and
optionally a dot followed by exactly one digit. -/
def claimValueGrammar (s : List Nat) : Bool :=
  let t := if s.head? = some 45 then s.tail else s
  let d := t.takeWhile isDigit
  let r := t.dropWhile isDigit
  d ≠ [] && (r = [] || (r.length = 2 && r.head? = some 46 && r.getLast?.elim false isDigit))

/-- Word: spec-side predicate: a rendered numeric field carrying exactly
one fractional digit, that is, an optional minus sign, a nonempty digit
run, a dot, and exactly one digit. -/
def oneFrac (s : List Nat) : Bool :=
  let t := if s.head? = some 45 then s.tail else s
  match t.reverse with
  | d :: 46 :: rest => isDigit d && rest ≠ [] && rest.all isDigit
  | _ => false

/-- Word: the separator-join of rendered entries, written recursively the
way the spec describes the output: entries separated by `sep`. -/
def joinSep (sep : List Nat) : List (List Nat) → List Nat
  | [] => []
  | [x] => x
  | x :: xs => x ++ sep ++ joinSep sep xs

/-- Word: the parsed view of one line, factored out of `process_line`:
the key field, and the value field parsed as `f32`; `none` is the panic. -/
def parseLine (line : List Nat) : Option (List Nat × F32) :=
  match splitSep 59 line with
  | [] => none
  | city :: rest =>
    match rest.head? with
    | none => none
    | some v => (f32_from_str v).map (fun value => (city, value))

/-- Word: the values carried by the lines whose key field is `k`, in
order. -/
def valsOf (k : List Nat) (ls : List (List Nat)) : List F32 :=
  (((ls.filterMap parseLine).filter (fun cv => cv.1 = k)).map Prod.snd)

/-- Word: the running-minimum step hidden in the two `if min > x` updates
of src/main.rs: keep the accumulator unless the candidate compares
strictly below it. -/
def fmin (m v : F32) : F32 := if F32.lt v m then v else m

/-- Word: the running-maximum step hidden in the two `if max < x` updates
of src/main.rs. -/
def fmax (m v : F32) : F32 := if F32.lt m v then v else m

/-- Word: the worker entries found for a key, one per worker map that
holds the key, in worker order. -/
def entriesOf (k : List Nat) (ws : List AMap) : List CityEntry :=
  ws.filterMap (fun w => alookup w k)

/-- Word: order embedding used only in proofs: a non-NaN float value goes
to the linear order with a bottom for negative infinity and a top for
positive infinity, and NaN also goes to the top, where it is absorbed by
minimum computations just as the NaN-rejecting `f32` comparison ignores
it. -/
def eF : F32 → WithBot (WithTop ℚ)
  | F32.finite q => ((q : WithTop ℚ) : WithBot (WithTop ℚ))
  | F32.inf true => ⊥
  | F32.inf false => ((⊤ : WithTop ℚ) : WithBot (WithTop ℚ))
  | F32.nan => ((⊤ : WithTop ℚ) : WithBot (WithTop ℚ))

/-- Word: dual embedding for maximum computations: NaN and negative
infinity go to the bottom, where the maximum ignores them. -/
def eG : F32 → WithBot (WithTop ℚ)
  | F32.finite q => ((q : WithTop ℚ) : WithBot (WithTop ℚ))
  | F32.inf true => ⊥
  | F32.inf false => ((⊤ : WithTop ℚ) : WithBot (WithTop ℚ))
  | F32.nan => ⊥

/-- Word: the global entry produced for one key when one worker saw the
value list `vs1` and the remaining workers holding the key saw the lists
in `rest`: the first worker entry is inserted, the others merged. -/
def mergedOf (vs1 : List F32) (rest : List (List F32)) : CityEntry :=
  List.foldl mergeEntry (List.foldl updateEntry CityEntry.default vs1)
    (rest.map (fun vs => List.foldl updateEntry CityEntry.default vs))

/-- Word: a successful read strictly consumes input (needed for
termination of `read_all`). -/
theorem read_from_shrink {rem c rem'} (h : read_from rem = ReadResult.chunk c rem') :
    rem'.length < rem.length := by
  unfold read_from at h
  by_cases hrem : rem = []
  · subst hrem; simp [BLOCK_SIZE] at h
  · have hne : (rem.take BLOCK_SIZE).isEmpty = false := by
      cases rem with
      | nil => exact absurd rfl hrem
      | cons x xs => simp [BLOCK_SIZE]
    rw [hne] at h
    simp only [Bool.false_eq_true, if_false] at h
    cases hidx : last_nl_idx (rem.take BLOCK_SIZE) with
    | none => rw [hidx] at h; exact absurd h (by simp)
    | some i =>
      rw [hidx] at h
      simp only [] at h
      by_cases hu : validUtf8 ((rem.take BLOCK_SIZE).take (i + 1)) = true
      · rw [if_pos hu] at h
        cases h
        have : rem.length ≠ 0 := by simpa using hrem
        simp only [List.length_drop]
        omega
      · rw [if_neg hu] at h; exact absurd h (by simp)

/-- Word: characterisation of `last_nl_idx`: a found index is in range and
the block truncated just after it ends with the newline byte. -/
theorem last_nl_idx_spec :
    ∀ {l : List Nat} {i}, last_nl_idx l = some i →
      i < l.length ∧ (l.take (i + 1)).getLast? = some 10 := by
  intro l
  induction l with
  | nil => intro i h; simp [last_nl_idx] at h
  | cons b rest ih =>
    intro i h
    unfold last_nl_idx at h
    cases hr : last_nl_idx rest with
    | some j =>
      rw [hr] at h
      cases h
      obtain ⟨hlt, hlast⟩ := ih hr
      constructor
      · simpa using Nat.succ_lt_succ hlt
      · have hne : rest.take (j + 1) ≠ [] := by
          cases rest with
          | nil => simp at hlt
          | cons r rs => simp [List.take]
        rw [List.take_succ_cons]
        cases htk : rest.take (j + 1) with
        | nil => exact absurd htk hne
        | cons x xs => rw [List.getLast?_cons_cons]; rw [htk] at hlast; exact hlast
    | none =>
      rw [hr] at h
      by_cases hb : b = 10
      · rw [if_pos hb] at h
        cases h
        subst hb
        exact ⟨Nat.succ_pos _, by simp⟩
      · rw [if_neg hb] at h; cases h

/-- Word: a block containing no newline byte makes `last_nl_idx` fail. -/
theorem last_nl_idx_none {l : List Nat} (h : ∀ b ∈ l, b ≠ 10) :
    last_nl_idx l = none := by
  induction l with
  | nil => rfl
  | cons b rest ih =>
    unfold last_nl_idx
    rw [ih (fun x hx => h x (List.mem_cons_of_mem b hx))]
    rw [if_neg (h b (List.mem_cons_self b rest))]

/-- Word: a successful read returns a chunk that is exactly the consumed
portion of the input: chunk plus remainder reassemble the input, the chunk
is nonempty, no longer than the block capacity, and ends with a newline. -/
theorem read_from_chunk_spec {rem c rem'} (h : read_from rem = ReadResult.chunk c rem') :
    c ++ rem' = rem ∧ c ≠ [] ∧ c.getLast? = some 10 ∧ c.length ≤ BLOCK_SIZE := by
  unfold read_from at h
  split at h
  · exact absurd h (by simp)
  · rename_i hemp
    split at h
    · exact absurd h (by simp)
    · rename_i i hidx
      split at h
      · rename_i hu
        obtain ⟨hlt, hlast⟩ := last_nl_idx_spec hidx
        cases h
        have hle : i + 1 ≤ BLOCK_SIZE := by
          have := hlt.trans_le (List.length_take_le BLOCK_SIZE rem)
          omega
        have hc : (rem.take BLOCK_SIZE).take (i + 1) = rem.take (i + 1) := by
          rw [List.take_take, min_eq_left hle]
        refine ⟨?_, ?_, ?_, ?_⟩
        · rw [hc]; exact List.take_append_drop (i + 1) rem
        · rw [hc]
          have hrl : i < rem.length :=
            hlt.trans_le (by simpa using List.length_take_le BLOCK_SIZE rem)
          cases rem with
          | nil => simp at hrl
          | cons x xs => simp [List.take_succ_cons]
        · exact hlast
        · calc ((rem.take BLOCK_SIZE).take (i + 1)).length ≤ i + 1 := List.length_take_le _ _
            _ ≤ BLOCK_SIZE := hle
      · exact absurd h (by simp)

/-- Word: a read signals end of input exactly when no unread bytes remain. -/
theorem read_from_eof_iff {rem : List Nat} : read_from rem = ReadResult.eof ↔ rem = [] := by
  constructor
  · intro h
    unfold read_from at h
    split at h
    · rename_i hemp
      cases rem with
      | nil => rfl
      | cons x xs => simp [BLOCK_SIZE] at hemp
    · split at h
      · exact absurd h (by simp)
      · split at h
        · exact absurd h (by simp)
        · exact absurd h (by simp)
  · intro h; subst h; rfl

/-- Word: a nonempty read whose block holds no newline byte at all panics. -/
theorem read_from_no_nl_fault {rem : List Nat} (h1 : rem ≠ [])
    (h2 : ∀ b ∈ rem.take BLOCK_SIZE, b ≠ 10) : read_from rem = ReadResult.fault := by
  have hemp : (rem.take BLOCK_SIZE).isEmpty = false := by
    cases rem with
    | nil => exact absurd rfl h1
    | cons x xs => simp [BLOCK_SIZE]
  unfold read_from
  simp [hemp, last_nl_idx_none h2]

/-- Word: a completed sequence of reads concatenates back to the whole
input, whatever the iteration bound was. -/
theorem read_all_join_aux :
    ∀ (fuel : Nat) (rem : List Nat) (cs : List (List Nat)),
      read_all_fuel fuel rem = some cs → cs.flatten = rem := by
  intro fuel
  induction fuel with
  | zero => intro rem cs h; exact absurd h (by simp [read_all_fuel])
  | succ n ih =>
    intro rem cs h
    unfold read_all_fuel at h
    split at h
    · rename_i heq
      cases h
      rw [read_from_eof_iff] at heq
      simp [heq]
    · exact absurd h (by simp)
    · rename_i c rest heq
      cases hrec : read_all_fuel n rest with
      | none => rw [hrec] at h; simp at h
      | some cs' =>
        rw [hrec] at h
        simp only [Option.map_some', Option.some.injEq] at h
        subst h
        have hjoin := ih rest cs' hrec
        obtain ⟨happ, _, _, _⟩ := read_from_chunk_spec heq
        simpa [hjoin] using happ

/-- Word: every chunk delivered by a completed sequence of reads is
nonempty and newline-terminated, whatever the iteration bound was. -/
theorem read_all_chunks_aux :
    ∀ (fuel : Nat) (rem : List Nat) (cs : List (List Nat)),
      read_all_fuel fuel rem = some cs →
      ∀ c ∈ cs, c ≠ [] ∧ c.getLast? = some 10 := by
  intro fuel
  induction fuel with
  | zero => intro rem cs h; exact absurd h (by simp [read_all_fuel])
  | succ n ih =>
    intro rem cs h
    unfold read_all_fuel at h
    split at h
    · cases h; intro c hc; simp at hc
    · exact absurd h (by simp)
    · rename_i c rest heq
      cases hrec : read_all_fuel n rest with
      | none => rw [hrec] at h; simp at h
      | some cs' =>
        rw [hrec] at h
        simp only [Option.map_some', Option.some.injEq] at h
        subst h
        obtain ⟨_, hne, hnl, _⟩ := read_from_chunk_spec heq
        intro d hd
        cases hd with
        | head => exact ⟨hne, hnl⟩
        | tail _ hd' => exact ih rest cs' hrec d hd'

/-- C5.  Whenever the chunk reader runs to end of input on a file — in
particular for every file all of whose lines (with their newline
terminator) fit in the block capacity, end with a final newline and are
valid UTF-8, which is exactly when no read panics — concatenating the
valid regions of the delivered chunks, in order, reproduces the file
byte-for-byte: no byte is read twice or skipped. -/
theorem chunk_reconstruction (file : List Nat) (cs : List (List Nat))
    (h : read_all file = some cs) : cs.flatten = file :=
  read_all_join_aux (file.length + 1) file cs h

/-- Word: witness for `chunk_reconstruction` on the two-line file
`a;5.0\nbc;1.5\n`. -/
theorem chunk_reconstruction_witness :
    read_all (str2bytes ("a;5.0\nbc;1.5\n")) = some [str2bytes ("a;5.0\nbc;1.5\n")] ∧
      ([str2bytes ("a;5.0\nbc;1.5\n")] : List (List Nat)).flatten = str2bytes ("a;5.0\nbc;1.5\n") :=
  ⟨by decide, chunk_reconstruction (str2bytes ("a;5.0\nbc;1.5\n"))
    [str2bytes ("a;5.0\nbc;1.5\n")] (by decide)⟩

/-- C6.  Every chunk the reader delivers has a non-empty valid region that
ends with a newline byte, so all bytes before that newline belong to
complete lines and no line is ever split across two chunks. -/
theorem chunk_boundary_invariant (file : List Nat) (cs : List (List Nat))
    (h : read_all file = some cs) :
    ∀ c ∈ cs, c ≠ [] ∧ c.getLast? = some 10 :=
  read_all_chunks_aux (file.length + 1) file cs h

/-- Word: witness for `chunk_boundary_invariant` on a one-line file. -/
theorem chunk_boundary_invariant_witness :
    read_all (str2bytes ("xy;2.5\n")) = some [str2bytes ("xy;2.5\n")] ∧
      (str2bytes ("xy;2.5\n") ≠ [] ∧ (str2bytes ("xy;2.5\n")).getLast? = some 10) :=
  ⟨by decide,
    chunk_boundary_invariant (str2bytes ("xy;2.5\n")) [str2bytes ("xy;2.5\n")] (by decide)
      (str2bytes ("xy;2.5\n")) (by simp)⟩

/-- C7.  A read that obtains at least one byte but finds no newline
anywhere in the block is fatal — `read_from` panics instead of returning a
chunk or truncating a line — while a read that obtains zero bytes signals
end of input. -/
theorem no_newline_fatal (rem : List Nat) (h1 : rem ≠ [])
    (h2 : ∀ b ∈ rem.take BLOCK_SIZE, b ≠ 10) :
    read_from rem = ReadResult.fault ∧ read_from ([] : List Nat) = ReadResult.eof :=
  ⟨read_from_no_nl_fault h1 h2, read_from_eof_iff.mpr rfl⟩

/-- Word: witness for `no_newline_fatal` on the block `abc`. -/
theorem no_newline_fatal_witness :
    read_from (str2bytes ("abc")) = ReadResult.fault ∧
      read_from ([] : List Nat) = ReadResult.eof :=
  no_newline_fatal (str2bytes ("abc")) (by decide) (by decide)

/-- Word: a separator-free byte list splits into the single part that is
the list itself. -/
theorem splitSep_not_mem {sep : Nat} :
    ∀ {l : List Nat}, sep ∉ l → splitSep sep l = [l] := by
  intro l
  induction l with
  | nil => intro _; rfl
  | cons b bs ih =>
    intro h
    have hb : b ≠ sep := fun he => h (he ▸ List.mem_cons_self b bs)
    have hbs : sep ∉ bs := fun hm => h (List.mem_cons_of_mem b hm)
    simp only [splitSep]
    rw [if_neg hb, ih hbs]

/-- Word: splitting a list that starts with a separator-free part followed
by a separator yields that part first. -/
theorem splitSep_append {sep : Nat} :
    ∀ {l1 l2 : List Nat}, sep ∉ l1 →
      splitSep sep (l1 ++ sep :: l2) = l1 :: splitSep sep l2 := by
  intro l1
  induction l1 with
  | nil => intro l2 _; simp [splitSep]
  | cons b bs ih =>
    intro l2 h
    have hb : b ≠ sep := fun he => h (he ▸ List.mem_cons_self b bs)
    have hbs : sep ∉ bs := fun hm => h (List.mem_cons_of_mem b hm)
    simp only [List.cons_append, splitSep]
    have ih' : splitSep sep (bs.append (sep :: l2)) = bs :: splitSep sep l2 := ih hbs
    rw [if_neg hb, ih']

/-- C2-amended.  A line containing a second field delimiter is not fatal:
`split(';')` is only consumed twice, so the first two fields alone decide
the outcome and everything after the second delimiter is ignored.  (Such a
line is fatal only when its second field fails to parse as a float.) -/
theorem extra_delimiters_ignored (m : AMap) (f1 f2 rest : List Nat)
    (h1 : 59 ∉ f1) (h2 : 59 ∉ f2) :
    process_line m (f1 ++ 59 :: (f2 ++ 59 :: rest)) = process_line m (f1 ++ 59 :: f2) := by
  unfold process_line
  rw [splitSep_append h1, splitSep_append h2, splitSep_append h1, splitSep_not_mem h2]
  rfl

/-- Word: witness for `extra_delimiters_ignored`: the line `a;1.0;2.0`
processes exactly like `a;1.0`. -/
theorem extra_delimiters_ignored_witness :
    process_line [] (str2bytes ("a") ++ 59 :: (str2bytes ("1.0") ++ 59 :: str2bytes ("2.0"))) =
      process_line [] (str2bytes ("a") ++ 59 :: str2bytes ("1.0")) :=
  extra_delimiters_ignored [] (str2bytes ("a")) (str2bytes ("1.0")) (str2bytes ("2.0"))
    (by decide) (by decide)

/-- C2-counterexample.  The line `a;1.0;2.0` has two delimiters, yet
processing it is not fatal: it succeeds and records the value `1.0` for
key `a` (so the claim that extra delimiters abort the run is false). -/
theorem extra_delimiters_not_fatal_cex :
    (str2bytes ("a;1.0;2.0")).count 59 = 2 ∧
      process_line [] (str2bytes ("a;1.0;2.0")) =
        some [(str2bytes ("a"),
          { min := F32.finite 0, max := F32.finite 1, sum := F32.finite 1, count := 1 })] :=
  ⟨by decide, by with_unfolding_all rfl⟩

/-- C3-counterexample.  The value text `1e5` does not match the spec's
value grammar, yet the line `a;1e5` is accepted (Rust's `f32` parser
reads scientific notation), recording the value `100000` — so rejection
of everything outside the spec grammar is false. -/
theorem value_grammar_cex :
    claimValueGrammar (str2bytes ("1e5")) = false ∧
      process_line [] (str2bytes ("a;1e5")) =
        some [(str2bytes ("a"),
          { min := F32.finite 0, max := F32.finite 100000, sum := F32.finite 100000,
            count := 1 })] :=
  ⟨by decide, by with_unfolding_all rfl⟩

/-- Word: a nonempty `takeWhile` prefix exposes a first element satisfying
the predicate. -/
theorem takeWhile_ne_nil_head {p : Nat → Bool} {t : List Nat}
    (h : t.takeWhile p ≠ []) : ∃ c t', t = c :: t' ∧ p c = true := by
  cases t with
  | nil => simp at h
  | cons c t' =>
    refine ⟨c, t', rfl, ?_⟩
    by_cases hc : p c = true
    · exact hc
    · rw [List.takeWhile_cons, if_neg hc] at h; exact absurd rfl h

/-- Word: a keyword starting with a lowercase letter never matches a text
whose first byte is a digit, case-insensitively or otherwise. -/
theorem kwEq_digit_false (b : Nat) (t' : List Nat) (hb : isDigit b = true)
    (k0 : Nat) (kw : List Nat) (hk : 96 ≤ k0) :
    kwEq (b :: t') (k0 :: kw) = false := by
  unfold kwEq
  simp only [List.map_cons, decide_eq_false_iff_not]
  intro heq
  have h1 : lowerByte b = k0 := by
    have := congrArg List.head? heq
    simpa using this
  unfold isDigit at hb
  simp only [Bool.and_eq_true, decide_eq_true_eq] at hb
  unfold lowerByte at h1
  split at h1 <;> omega

/-- Word: the number parser accepts every digit run, optionally followed
by a dot and a single digit. -/
theorem parseNumber_accepts (neg : Bool) (t : List Nat)
    (hd : t.takeWhile isDigit ≠ [])
    (hr : t.dropWhile isDigit = [] ∨
      (∃ f, isDigit f = true ∧ t.dropWhile isDigit = [46, f])) :
    (parseNumber neg t).isSome = true := by
  unfold parseNumber
  rcases hr with hr | ⟨f, hf, hr⟩
  · rw [hr]
    simp [parseExpPart, hd]
  · rw [hr]
    simp [parseExpPart, hd, List.takeWhile_cons, List.dropWhile_cons, hf]

/-- Word: the spec grammar's optional tail is empty or a dot plus one
digit. -/
theorem grammar_tail_shape {t : List Nat}
    (hr : t.dropWhile isDigit = [] ∨
      (((t.dropWhile isDigit).length = 2 ∧ (t.dropWhile isDigit).head? = some 46) ∧
        (t.dropWhile isDigit).getLast?.elim false isDigit = true)) :
    t.dropWhile isDigit = [] ∨
      ∃ f, isDigit f = true ∧ t.dropWhile isDigit = [46, f] := by
  rcases hr with hr | ⟨⟨h2, h46⟩, hlast⟩
  · exact Or.inl hr
  · right
    cases hdw : t.dropWhile isDigit with
    | nil => rw [hdw] at h2; simp at h2
    | cons x xs =>
      cases xs with
      | nil => rw [hdw] at h2; simp at h2
      | cons y ys =>
        cases ys with
        | nil =>
          rw [hdw] at h46 hlast
          simp only [List.head?_cons, Option.some.injEq] at h46
          subst h46
          simp only [List.getLast?_cons_cons, List.getLast?_singleton, Option.elim_some] at hlast
          exact ⟨y, hlast, rfl⟩
        | cons z zs => rw [hdw] at h2; simp at h2

/-- Word: a byte that is a digit is not an ASCII sign. -/
theorem stripSign_no_sign {b : Nat} (r : List Nat) (h43 : b ≠ 43) (h45 : b ≠ 45) :
    stripSign (b :: r) = (false, b :: r) := by
  unfold stripSign
  split
  · rename_i heq; injection heq with h1 _; exact absurd h1 h43
  · rename_i heq; injection heq with h1 _; exact absurd h1 h45
  · rfl

/-- C3-amended.  Every value text matching the spec's grammar
`-?[0-9]+(\.[0-9])?` (with `F = 1`) is accepted by the value parser; the
converse direction of the claim fails (see `value_grammar_cex`) because
Rust's `f32` grammar also accepts exponents, `inf`, `NaN`, a leading `+`,
a leading or trailing bare dot, and other fractional-digit counts, so a
value text is fatal only when that larger grammar rejects it. -/
theorem claim_grammar_accepted (s : List Nat) (h : claimValueGrammar s = true) :
    (f32_from_str s).isSome = true := by
  unfold claimValueGrammar at h
  simp only [Bool.and_eq_true, Bool.or_eq_true, decide_eq_true_eq, ne_eq] at h
  cases s with
  | nil => simp at h
  | cons b s' =>
    by_cases hb45 : b = 45
    · subst hb45
      simp only [List.head?_cons, List.tail_cons, Option.some.injEq, eq_self_iff_true,
        if_true] at h
      obtain ⟨hd, hr⟩ := h
      obtain ⟨c, t', ht, hc⟩ := takeWhile_ne_nil_head hd
      unfold f32_from_str
      simp only [stripSign]
      rw [ht, kwEq_digit_false c t' hc 105 _ (by omega),
        kwEq_digit_false c t' hc 105 _ (by omega),
        kwEq_digit_false c t' hc 110 _ (by omega)]
      rw [← ht]
      simp only [Bool.false_eq_true, if_false]
      exact parseNumber_accepts true s' hd (grammar_tail_shape hr)
    · have hts : (if (b :: s').head? = some 45 then (b :: s').tail else b :: s') = b :: s' := by
        simp [hb45]
      rw [hts] at h
      obtain ⟨hd, hr⟩ := h
      obtain ⟨c, t', htc, hc⟩ := takeWhile_ne_nil_head hd
      have hbc : b = c := by injection htc
      have hdig : isDigit b = true := hbc ▸ hc
      have hb48 : 48 ≤ b ∧ b ≤ 57 := by
        unfold isDigit at hdig
        simpa using hdig
      unfold f32_from_str
      rw [stripSign_no_sign s' (by omega) (by omega)]
      simp only []
      rw [kwEq_digit_false b s' hdig 105 _ (by omega),
        kwEq_digit_false b s' hdig 105 _ (by omega),
        kwEq_digit_false b s' hdig 110 _ (by omega)]
      simp only [Bool.false_eq_true, if_false]
      exact parseNumber_accepts false (b :: s') hd (grammar_tail_shape hr)

/-- Word: witness for `claim_grammar_accepted` at the text `-12.5`. -/
theorem claim_grammar_accepted_witness :
    claimValueGrammar (str2bytes ("-12.5")) = true ∧
      (f32_from_str (str2bytes ("-12.5"))).isSome = true :=
  ⟨by decide, claim_grammar_accepted (str2bytes ("-12.5")) (by decide)⟩

/-- C1 (against the code as written).  For the single-line file `a;5.0\n`
the reader produces exactly one chunk, but the pipeline's output is
`{a=0.0/5.0/5.0}`, not the claimed `{a=5.0/5.0/5.0}`: the accumulator is
created by `CityEntry::default()`, whose `min` and `max` start at `0.0`
instead of at the first value, so a single positive value leaves
`min = 0.0` (and a single negative value would leave `max = 0.0`).  The
repository's own oracle — the generator, which seeds `min` and `max` with
the first value when computing the expected-result file — disagrees, so
this is a defect of the code rather than of the claim. -/
theorem single_line_run :
    read_all (str2bytes ("a;5.0\n")) = some [str2bytes ("a;5.0\n")] ∧
      run_single_thread (str2bytes ("a;5.0\n")) = some (str2bytes ("{a=0.0/5.0/5.0}")) :=
  ⟨by decide, by with_unfolding_all rfl⟩

/-- C10.  With `--threads 0` the spawn loop runs zero times, the merge
folds over an empty vector of worker maps, and the formatted output is
exactly the two bytes of an empty brace pair, whatever the input file
holds. -/
theorem zero_threads_output (file : List Nat) :
    run_zero_threads file = some (str2bytes ("{}")) := by
  with_unfolding_all rfl

/-- Word: totality of the byte-wise lexicographic order. -/
theorem bytesLe_total : ∀ a b : List Nat, bytesLe a b = true ∨ bytesLe b a = true := by
  intro a
  induction a with
  | nil => intro b; left; rfl
  | cons x xs ih =>
    intro b
    cases b with
    | nil => right; rfl
    | cons y ys =>
      by_cases hxy : x < y
      · left; simp [bytesLe, hxy]
      · by_cases hyx : y < x
        · right; simp [bytesLe, hyx]
        · rcases ih ys with h | h
          · left; simp [bytesLe, hxy, hyx, h]
          · right; simp [bytesLe, hxy, hyx, h]

/-- Word: transitivity of the byte-wise lexicographic order. -/
theorem bytesLe_trans :
    ∀ a b c : List Nat, bytesLe a b = true → bytesLe b c = true → bytesLe a c = true := by
  intro a
  induction a with
  | nil => intros; rfl
  | cons x xs ih =>
    intro b c hab hbc
    cases b with
    | nil => simp [bytesLe] at hab
    | cons y ys =>
      cases c with
      | nil => simp [bytesLe] at hbc
      | cons z zs =>
        simp only [bytesLe] at hab hbc ⊢
        rcases Nat.lt_trichotomy x y with h1 | h1 | h1
        · rcases Nat.lt_trichotomy y z with h2 | h2 | h2
          · simp [Nat.lt_trans h1 h2]
          · subst h2; simp [h1]
          · simp only [if_neg (by omega : ¬ y < z), if_pos h2] at hbc; cases hbc
        · subst h1
          simp only [if_neg (lt_irrefl x)] at hab
          rcases Nat.lt_trichotomy x z with h2 | h2 | h2
          · simp [h2]
          · subst h2
            simp only [if_neg (lt_irrefl x)] at hbc ⊢
            exact ih ys zs hab hbc
          · simp only [if_neg (by omega : ¬ x < z), if_pos h2] at hbc; cases hbc
        · simp only [if_neg (by omega : ¬ x < y), if_pos h1] at hab; cases hab

/-- Word: antisymmetry of the byte-wise lexicographic order. -/
theorem bytesLe_antisymm :
    ∀ a b : List Nat, bytesLe a b = true → bytesLe b a = true → a = b := by
  intro a
  induction a with
  | nil =>
    intro b _ hba
    cases b with
    | nil => rfl
    | cons y ys => simp [bytesLe] at hba
  | cons x xs ih =>
    intro b hab hba
    cases b with
    | nil => simp [bytesLe] at hab
    | cons y ys =>
      simp only [bytesLe] at hab hba
      rcases Nat.lt_trichotomy x y with h1 | h1 | h1
      · simp only [if_neg (by omega : ¬ y < x), if_pos h1] at hba; cases hba
      · subst h1
        simp only [if_neg (lt_irrefl x)] at hab hba
        rw [ih ys hab hba]
      · simp only [if_neg (by omega : ¬ x < y), if_pos h1] at hab; cases hab

instance : IsTotal (List Nat) (fun a b => bytesLe a b = true) := ⟨bytesLe_total⟩

instance : IsTrans (List Nat) (fun a b => bytesLe a b = true) := ⟨bytesLe_trans⟩

/-- Word: the recursive join equals prepending the separator to every
entry after the first. -/
theorem joinSep_eq_flatMap (sep : List Nat) :
    ∀ (x : List Nat) (xs : List (List Nat)),
      joinSep sep (x :: xs) = x ++ xs.flatMap (fun y => sep ++ y) := by
  intro x xs
  induction xs generalizing x with
  | nil => simp [joinSep]
  | cons y ys ih => simp [joinSep, ih y, List.append_assoc]

/-- Word: the first-entry-flag loop of `calculate` produces exactly the
separator-join of the rendered entries. -/
theorem format_fold_eq_joinSep (g : AMap) (ks : List (List Nat)) :
    (ks.foldl
      (fun acc name =>
        (acc.1 ++ (if acc.2 then ([] : List Nat) else [44, 32]) ++ render_entry g name, false))
      (([] : List Nat), true)).1 = joinSep [44, 32] (ks.map (render_entry g)) := by
  have aux : ∀ (l : List (List Nat)) (pre : List Nat),
      (l.foldl
        (fun acc name =>
          (acc.1 ++ (if acc.2 then ([] : List Nat) else [44, 32]) ++ render_entry g name, false))
        (pre, false)).1 = pre ++ l.flatMap (fun n => [44, 32] ++ render_entry g n) := by
    intro l
    induction l with
    | nil => intro pre; simp
    | cons n ns ih =>
      intro pre
      rw [List.foldl_cons]
      have h := ih (pre ++ [44, 32] ++ render_entry g n)
      simp only [List.flatMap_cons, List.append_assoc] at h ⊢
      exact h
  cases ks with
  | nil => rfl
  | cons n ns =>
    simp only [List.map_cons]
    rw [joinSep_eq_flatMap, List.foldl_cons]
    have h := aux ns (render_entry g n)
    simp only [List.flatMap_map, Function.comp_def, List.append_assoc] at h ⊢
    exact h

/-- Word: the decimal rendering of a natural number is a nonempty string
of ASCII digits, whatever the iteration bound. -/
theorem natDecAux_digits :
    ∀ fuel n : Nat, natDecAux fuel n ≠ [] ∧ ∀ b ∈ natDecAux fuel n, isDigit b = true := by
  intro fuel
  induction fuel with
  | zero =>
    intro n
    refine ⟨by simp [natDecAux], ?_⟩
    intro b hb
    simp only [natDecAux, List.mem_singleton] at hb
    subst hb
    have hlt : n % 10 < 10 := Nat.mod_lt _ (by omega)
    simp only [isDigit, Bool.and_eq_true, decide_eq_true_eq]
    omega
  | succ f ih =>
    intro n
    unfold natDecAux
    by_cases h : n < 10
    · rw [if_pos h]
      refine ⟨by simp, ?_⟩
      intro b hb
      simp only [List.mem_singleton] at hb
      subst hb
      simp only [isDigit, Bool.and_eq_true, decide_eq_true_eq]
      omega
    · rw [if_neg h]
      obtain ⟨hne, hall⟩ := ih (n / 10)
      refine ⟨by simp, ?_⟩
      intro b hb
      rcases List.mem_append.mp hb with hb | hb
      · exact hall b hb
      · simp only [List.mem_singleton] at hb
        subst hb
        have hlt : n % 10 < 10 := Nat.mod_lt _ (by omega)
        simp only [isDigit, Bool.and_eq_true, decide_eq_true_eq]
        omega

/-- Word: the decimal rendering of a natural number is a nonempty string
of ASCII digits. -/
theorem natDec_digits (n : Nat) : natDec n ≠ [] ∧ ∀ b ∈ natDec n, isDigit b = true :=
  natDecAux_digits n n

/-- Word: the fixed-precision rendering of any finite value is an optional
minus sign, at least one digit, a dot, and exactly one digit. -/
theorem oneFrac_fmtNum (q : ℚ) : oneFrac (fmtNum (F32.finite q)) = true := by
  unfold fmtNum
  simp only []
  set m := (rndHalfEven (|q| * 10)).toNat with hm
  obtain ⟨hne, hdig⟩ := natDec_digits (m / 10)
  have hrev :
      (natDec (m / 10) ++ [46, 48 + m % 10]).reverse
        = (48 + m % 10) :: 46 :: (natDec (m / 10)).reverse := by
    simp
  have hd0 : isDigit (48 + m % 10) = true := by
    have hlt : m % 10 < 10 := Nat.mod_lt _ (by omega)
    simp only [isDigit, Bool.and_eq_true, decide_eq_true_eq]
    omega
  have hrest_ne : (natDec (m / 10)).reverse ≠ [] := by
    simpa [List.reverse_eq_nil_iff] using hne
  have hrest_all : ((natDec (m / 10)).reverse).all isDigit = true := by
    rw [List.all_eq_true]
    intro b hb
    exact hdig b (List.mem_reverse.mp hb)
  by_cases hq : q < 0
  · rw [if_pos hq]
    unfold oneFrac
    simp only [List.cons_append, List.nil_append, List.head?_cons, List.tail_cons,
      Option.some.injEq, eq_self_iff_true, if_true]
    rw [hrev]
    simp [hd0, hrest_ne, hrest_all]
  · rw [if_neg hq]
    unfold oneFrac
    obtain ⟨c, cs, hc⟩ := List.exists_cons_of_ne_nil hne
    have hcdig : isDigit c = true := hdig c (by rw [hc]; exact List.mem_cons_self c cs)
    have hc45 : c ≠ 45 := by
      simp only [isDigit, Bool.and_eq_true, decide_eq_true_eq] at hcdig
      omega
    have hhead : (natDec (m / 10) ++ [46, 48 + m % 10]).head? = some c := by
      rw [hc]; rfl
    simp only [List.nil_append, hhead]
    rw [if_neg (by simpa using hc45)]
    rw [hrev]
    simp [hd0, hrest_ne, hrest_all]

/-- Word: a key drawn from the map's key list has an entry. -/
theorem alookup_of_mem_keys :
    ∀ {g : AMap} {k : List Nat}, k ∈ g.map Prod.fst → ∃ e, alookup g k = some e := by
  intro g
  induction g with
  | nil => intro k h; simp at h
  | cons kv rest ih =>
    intro k h
    by_cases hk : kv.1 = k
    · exact ⟨kv.2, by simp [alookup, hk]⟩
    · simp only [List.map_cons, List.mem_cons] at h
      rcases h with h | h
      · exact absurd h.symm hk
      · obtain ⟨e, he⟩ := ih h
        exact ⟨e, by simp [alookup, hk, he]⟩

/-- Word: a successful lookup pair is one of the map's bindings. -/
theorem alookup_mem :
    ∀ {g : AMap} {k : List Nat} {e : CityEntry}, alookup g k = some e → (k, e) ∈ g := by
  intro g
  induction g with
  | nil => intro k e h; simp [alookup] at h
  | cons kv rest ih =>
    intro k e h
    unfold alookup at h
    by_cases hk : kv.1 = k
    · rw [if_pos hk] at h
      cases h
      subst hk
      exact List.mem_cons_self kv rest
    · rw [if_neg hk] at h
      exact List.mem_cons_of_mem kv (ih h)

/-- C8-amended.  For every global map whose accumulator fields — min, max,
and the computed average `sum / count as f32` — are finite, the formatter
emits an opening brace, the entries sorted by ascending byte-wise
lexicographic key order and separated by comma-space, and a closing
brace; each entry is `<key>=<min>/<avg>/<max>` and each of the three
numbers carries exactly one fractional digit.  The finiteness proviso is
forced by `formatter_inf_cex`: an infinite accumulator (reachable, since
the parser accepts `inf`) prints `inf` with no fractional digit. -/
theorem formatter_spec (g : AMap)
    (hfin : ∀ kv ∈ g, kv.2.min.isFinite = true ∧ kv.2.max.isFinite = true ∧
      (F32.div kv.2.sum (f32ofNat kv.2.count)).isFinite = true) :
    ∃ ks, ks.Perm (g.map Prod.fst) ∧
      List.Sorted (fun a b => bytesLe a b = true) ks ∧
      format_output g = [123] ++ joinSep [44, 32] (ks.map (render_entry g)) ++ [125] ∧
      ∀ k ∈ ks, ∃ e, alookup g k = some e ∧
        render_entry g k =
          k ++ [61] ++ fmtNum e.min ++ [47]
            ++ fmtNum (F32.div e.sum (f32ofNat e.count)) ++ [47] ++ fmtNum e.max ∧
        oneFrac (fmtNum e.min) = true ∧
        oneFrac (fmtNum (F32.div e.sum (f32ofNat e.count))) = true ∧
        oneFrac (fmtNum e.max) = true := by
  refine ⟨sortKeys (g.map Prod.fst), List.perm_insertionSort _ _,
    List.sorted_insertionSort _ _, ?_, ?_⟩
  · show [123] ++ ((sortKeys (g.map Prod.fst)).foldl
      (fun acc name =>
        (acc.1 ++ (if acc.2 then ([] : List Nat) else [44, 32]) ++ render_entry g name, false))
      (([] : List Nat), true)).1 ++ [125] = _
    rw [format_fold_eq_joinSep]
  · intro k hk
    have hmem : k ∈ g.map Prod.fst := (List.perm_insertionSort _ _).subset hk
    obtain ⟨e, he⟩ := alookup_of_mem_keys hmem
    obtain ⟨hmin, hmax, havg⟩ := hfin (k, e) (alookup_mem he)
    refine ⟨e, he, ?_, ?_, ?_, ?_⟩
    · unfold render_entry
      rw [he]
    · cases hm : e.min with
      | finite q => exact oneFrac_fmtNum q
      | inf s => rw [hm] at hmin; simp [F32.isFinite] at hmin
      | nan => rw [hm] at hmin; simp [F32.isFinite] at hmin
    · cases hm : F32.div e.sum (f32ofNat e.count) with
      | finite q => exact oneFrac_fmtNum q
      | inf s => rw [hm] at havg; simp [F32.isFinite] at havg
      | nan => rw [hm] at havg; simp [F32.isFinite] at havg
    · cases hm : e.max with
      | finite q => exact oneFrac_fmtNum q
      | inf s => rw [hm] at hmax; simp [F32.isFinite] at hmax
      | nan => rw [hm] at hmax; simp [F32.isFinite] at hmax

/-- Word: witness for `formatter_spec` on a two-key map. -/
theorem formatter_spec_witness :
    ∃ ks, ks.Perm (([(str2bytes ("b"),
        { min := F32.finite 1, max := F32.finite 3, sum := F32.finite 4, count := 2 }),
      (str2bytes ("a"),
        { min := F32.finite 0, max := F32.finite 2, sum := F32.finite 2,
          count := 1 })] : AMap).map Prod.fst) ∧
      List.Sorted (fun a b => bytesLe a b = true) ks ∧
      format_output [(str2bytes ("b"),
        { min := F32.finite 1, max := F32.finite 3, sum := F32.finite 4, count := 2 }),
        (str2bytes ("a"),
          { min := F32.finite 0, max := F32.finite 2, sum := F32.finite 2, count := 1 })] =
        [123] ++ joinSep [44, 32] (ks.map (render_entry [(str2bytes ("b"),
          { min := F32.finite 1, max := F32.finite 3, sum := F32.finite 4, count := 2 }),
          (str2bytes ("a"),
            { min := F32.finite 0, max := F32.finite 2, sum := F32.finite 2,
              count := 1 })])) ++ [125] ∧
      ∀ k ∈ ks, ∃ e, alookup [(str2bytes ("b"),
          { min := F32.finite 1, max := F32.finite 3, sum := F32.finite 4, count := 2 }),
          (str2bytes ("a"),
            { min := F32.finite 0, max := F32.finite 2, sum := F32.finite 2,
              count := 1 })] k = some e ∧
        render_entry [(str2bytes ("b"),
          { min := F32.finite 1, max := F32.finite 3, sum := F32.finite 4, count := 2 }),
          (str2bytes ("a"),
            { min := F32.finite 0, max := F32.finite 2, sum := F32.finite 2,
              count := 1 })] k =
          k ++ [61] ++ fmtNum e.min ++ [47]
            ++ fmtNum (F32.div e.sum (f32ofNat e.count)) ++ [47] ++ fmtNum e.max ∧
        oneFrac (fmtNum e.min) = true ∧
        oneFrac (fmtNum (F32.div e.sum (f32ofNat e.count))) = true ∧
        oneFrac (fmtNum e.max) = true :=
  formatter_spec _ (by
    intro kv hkv
    simp only [List.mem_cons, List.not_mem_nil, or_false] at hkv
    rcases hkv with hkv | hkv <;> subst hkv <;>
      exact ⟨rfl, rfl, by with_unfolding_all rfl⟩)

/-- C8-counterexample.  The claim's formatting guarantee fails for global
maps holding non-finite values, which are reachable: feeding the line
`a;inf` (accepted by the parser) produces the output `{a=0.0/inf/inf}`,
whose average and maximum fields are rendered as `inf` — not a number
with exactly one fractional digit. -/
theorem formatter_inf_cex :
    run_single_thread (str2bytes ("a;inf\n")) = some (str2bytes ("{a=0.0/inf/inf}")) ∧
      oneFrac (str2bytes ("inf")) = false ∧
      format_output [(str2bytes ("a"),
        { min := F32.finite 0, max := F32.inf false, sum := F32.inf false, count := 1 })] =
        str2bytes ("{a=0.0/inf/inf}") :=
  ⟨by with_unfolding_all rfl, by decide, by with_unfolding_all rfl⟩

/-- Word: `process_line` in terms of the parsed view. -/
theorem process_line_eq (m : AMap) (line : List Nat) :
    process_line m line = (parseLine line).map (fun cv =>
      aupdate (if (alookup m cv.1).isSome then m else m ++ [(cv.1, CityEntry.default)]) cv.1
        (fun e => updateEntry e cv.2)) := by
  unfold process_line parseLine
  cases splitSep 59 line with
  | nil => rfl
  | cons city rest =>
    dsimp only
    cases rest.head? with
    | none => rfl
    | some v =>
      dsimp only
      cases f32_from_str v with
      | none => rfl
      | some value => rfl

/-- Word: the per-line update written componentwise. -/
theorem updateEntry_eq (e : CityEntry) (v : F32) :
    updateEntry e v =
      { min := fmin e.min v, max := fmax e.max v,
        sum := F32.add e.sum v, count := e.count + 1 } := by
  unfold updateEntry fmin fmax
  by_cases h1 : F32.lt e.max v = true <;> by_cases h2 : F32.lt v e.min = true <;>
    simp [h1, h2]

/-- Word: the per-key merge written componentwise. -/
theorem mergeEntry_eq (fd pd : CityEntry) :
    mergeEntry fd pd =
      { min := fmin fd.min pd.min, max := fmax fd.max pd.max,
        sum := F32.add fd.sum pd.sum, count := fd.count + pd.count } := by
  unfold mergeEntry fmin fmax
  by_cases h1 : F32.lt pd.min fd.min = true <;> by_cases h2 : F32.lt fd.max pd.max = true <;>
    simp [h1, h2]

/-- Word: lookup on a cons, as a rewriting equation. -/
theorem alookup_cons (kv : List Nat × CityEntry) (rest : AMap) (k : List Nat) :
    alookup (kv :: rest) k = if kv.1 = k then some kv.2 else alookup rest k := rfl

/-- Word: looking up after an in-place modification. -/
theorem alookup_aupdate (m : AMap) (k k' : List Nat) (f : CityEntry → CityEntry) :
    alookup (aupdate m k f) k' =
      if k = k' then (alookup m k').map f else alookup m k' := by
  induction m with
  | nil => by_cases hkk : k = k' <;> simp [alookup, aupdate, hkk]
  | cons kv rest ih =>
    unfold aupdate at ih ⊢
    simp only [List.map_cons, alookup_cons]
    by_cases hk : kv.1 = k
    · simp only [if_pos hk]
      by_cases hk' : kv.1 = k'
      · have hkk : k = k' := hk.symm.trans hk'
        simp [alookup_cons, hk', hkk]
      · have hkk : ¬ k = k' := fun he => hk' (hk.trans he)
        simp [alookup_cons, hk', hkk, ih]
    · simp only [if_neg hk]
      by_cases hk' : kv.1 = k'
      · have hkk : ¬ k = k' := fun he => hk (hk'.trans he.symm)
        simp [alookup_cons, hk', hkk]
      · by_cases hkk : k = k'
        · subst hkk; simp [alookup_cons, hk', ih]
        · simp [alookup_cons, hk', hkk, ih]

/-- Word: looking up after appending a fresh binding at the end. -/
theorem alookup_append_single (m : AMap) (c : List Nat) (e : CityEntry) (k : List Nat) :
    alookup (m ++ [(c, e)]) k =
      match alookup m k with
      | some e' => some e'
      | none => if c = k then some e else none := by
  induction m with
  | nil => simp [alookup]
  | cons kv rest ih =>
    unfold alookup
    by_cases hk : kv.1 = k
    · simp [hk]
    · simp only [List.cons_append, if_neg hk]
      exact ih

/-- Word: the in-place modification preserves the key list. -/
theorem aupdate_keys (m : AMap) (k : List Nat) (f : CityEntry → CityEntry) :
    (aupdate m k f).map Prod.fst = m.map Prod.fst := by
  induction m with
  | nil => rfl
  | cons kv rest ih =>
    unfold aupdate at ih ⊢
    by_cases hk : kv.1 = k
    · simp only [List.map_cons, if_pos hk]
      rw [show ((kv.1, f kv.2) : List Nat × CityEntry).1 = kv.1 from rfl]
      rw [ih]
    · simp only [List.map_cons, if_neg hk]
      rw [ih]

/-- Word: an absent key means the lookup fails. -/
theorem alookup_eq_none_of_not_mem {m : AMap} {k : List Nat}
    (h : k ∉ m.map Prod.fst) : alookup m k = none := by
  induction m with
  | nil => rfl
  | cons kv rest ih =>
    simp only [List.map_cons, List.mem_cons] at h
    push_neg at h
    show (if kv.1 = k then some kv.2 else alookup rest k) = none
    rw [if_neg (fun he => h.1 he.symm)]
    exact ih h.2

/-- Word: values of a key across a parsed line followed by more lines. -/
theorem valsOf_cons_parse {l c : List Nat} {v : F32} (h : parseLine l = some (c, v))
    (k : List Nat) (ls : List (List Nat)) :
    valsOf k (l :: ls) = if c = k then v :: valsOf k ls else valsOf k ls := by
  unfold valsOf
  rw [List.filterMap_cons, h]
  by_cases hc : c = k
  · simp [List.filter_cons, hc]
  · simp [List.filter_cons, hc]

/-- Word: values of a key distribute over concatenation of line lists. -/
theorem valsOf_append (k : List Nat) (a b : List (List Nat)) :
    valsOf k (a ++ b) = valsOf k a ++ valsOf k b := by
  simp [valsOf, List.filterMap_append, List.filter_append]

/-- Word: the worker fold of `process_line` over a list of parseable lines
succeeds, and the resulting map holds, for each key, the fold of the
per-line update over that key's values, seeded from the initial map or
from `CityEntry::default()`. -/
theorem process_fold_lookup :
    ∀ (ls : List (List Nat)) (M0 : AMap), (∀ l ∈ ls, (parseLine l).isSome = true) →
      ∃ M, ls.foldlM process_line M0 = some M ∧
        ∀ k, alookup M k =
          match alookup M0 k with
          | some e => some (List.foldl updateEntry e (valsOf k ls))
          | none =>
            if valsOf k ls = [] then none
            else some (List.foldl updateEntry CityEntry.default (valsOf k ls)) := by
  intro ls
  induction ls with
  | nil =>
    intro M0 _
    refine ⟨M0, rfl, ?_⟩
    intro k
    cases h : alookup M0 k <;> simp [valsOf]
  | cons l ls ih =>
    intro M0 hp
    have hl := hp l (List.mem_cons_self l ls)
    rw [Option.isSome_iff_exists] at hl
    obtain ⟨⟨c, v⟩, hcv⟩ := hl
    have hstep : process_line M0 l =
        some (aupdate (if (alookup M0 c).isSome then M0 else M0 ++ [(c, CityEntry.default)]) c
          (fun e => updateEntry e v)) := by
      rw [process_line_eq, hcv]
      rfl
    obtain ⟨M, hM, hchar⟩ :=
      ih (aupdate (if (alookup M0 c).isSome then M0 else M0 ++ [(c, CityEntry.default)]) c
          (fun e => updateEntry e v))
        (fun x hx => hp x (List.mem_cons_of_mem l hx))
    refine ⟨M, ?_, ?_⟩
    · rw [List.foldlM_cons, hstep]
      simpa using hM
    · intro k
      rw [hchar k]
      have hv := valsOf_cons_parse hcv k ls
      by_cases hck : c = k
      · subst hck
        have hM1c :
            alookup (aupdate (if (alookup M0 c).isSome then M0
                else M0 ++ [(c, CityEntry.default)]) c (fun e => updateEntry e v)) c
              = some (updateEntry ((alookup M0 c).getD CityEntry.default) v) := by
          rw [alookup_aupdate, if_pos rfl]
          cases h0 : alookup M0 c with
          | some e => simp [h0]
          | none => simp [h0, alookup_append_single]
        rw [hM1c]
        rw [if_pos rfl] at hv
        rw [hv]
        cases h0 : alookup M0 c with
        | some e => simp [h0, List.foldl_cons]
        | none => simp [h0, List.foldl_cons]
      · have hM1k :
            alookup (aupdate (if (alookup M0 c).isSome then M0
                else M0 ++ [(c, CityEntry.default)]) c (fun e => updateEntry e v)) k
              = alookup M0 k := by
          rw [alookup_aupdate, if_neg hck]
          cases h0 : alookup M0 c with
          | some e => simp [h0]
          | none =>
            simp only [h0, Option.isSome_none, Bool.false_eq_true, if_false]
            rw [alookup_append_single]
            cases h1 : alookup M0 k with
            | some e => simp
            | none => simp [if_neg hck]
        rw [hM1k]
        rw [if_neg hck] at hv
        rw [hv]

/-- Word: a failed lookup means the key is absent. -/
theorem not_mem_keys_of_alookup_none {m : AMap} {k : List Nat}
    (h : (alookup m k).isSome = false) : k ∉ m.map Prod.fst := by
  intro hmem
  obtain ⟨e, he⟩ := alookup_of_mem_keys hmem
  rw [he] at h
  simp at h

/-- Word: the worker fold keeps the map's keys duplicate-free (a key is
inserted only when absent; updates keep the key list unchanged), matching
the `HashMap` it models. -/
theorem process_fold_nodup :
    ∀ (ls : List (List Nat)) (M0 M : AMap), ls.foldlM process_line M0 = some M →
      (M0.map Prod.fst).Nodup → (M.map Prod.fst).Nodup := by
  intro ls
  induction ls with
  | nil =>
    intro M0 M h h0
    simp only [List.foldlM_nil] at h
    cases h
    exact h0
  | cons l ls ih =>
    intro M0 M h h0
    rw [List.foldlM_cons] at h
    cases hstep : process_line M0 l with
    | none => rw [hstep] at h; simp at h
    | some M1 =>
      rw [hstep] at h
      simp only [Option.bind_eq_bind, Option.some_bind] at h
      refine ih M1 M h ?_
      rw [process_line_eq] at hstep
      cases hcv : parseLine l with
      | none => rw [hcv] at hstep; cases hstep
      | some cv =>
        rw [hcv] at hstep
        simp only [Option.map_some', Option.some.injEq] at hstep
        subst hstep
        rw [aupdate_keys]
        by_cases h0' : (alookup M0 cv.1).isSome = true
        · rw [if_pos h0']; exact h0
        · rw [if_neg h0']
          rw [List.map_append]
          rw [List.nodup_append]
          refine ⟨h0, by simp, ?_⟩
          intro a ha hb
          simp only [List.map_cons, List.map_nil, List.mem_singleton] at hb
          subst hb
          exact not_mem_keys_of_alookup_none (by simpa using h0') ha

/-- Word: merging one binding leaves every other key's entry unchanged. -/
theorem combineOne_frame (G : AMap) (kv : List Nat × CityEntry) (k : List Nat)
    (hk : kv.1 ≠ k) : alookup (combineOne G kv) k = alookup G k := by
  unfold combineOne
  by_cases h : (alookup G kv.1).isSome = true
  · rw [if_pos h, alookup_aupdate, if_neg hk]
  · rw [if_neg h, alookup_append_single]
    cases h1 : alookup G k with
    | some e => rfl
    | none => simp [if_neg hk]

/-- Word: merging one worker map (with duplicate-free keys) into the
global map acts per key as one `mergeEntry` or an insertion. -/
theorem combine_worker_lookup :
    ∀ (w : AMap), (w.map Prod.fst).Nodup → ∀ (G : AMap) (k : List Nat),
      alookup (combine_worker G w) k =
        match alookup G k, alookup w k with
        | some ge, some pe => some (mergeEntry ge pe)
        | some ge, none => some ge
        | none, some pe => some pe
        | none, none => none := by
  intro w
  induction w with
  | nil =>
    intro _ G k
    cases h : alookup G k <;> simp [combine_worker, alookup, h]
  | cons kv rest ih =>
    intro hnd G k
    simp only [List.map_cons, List.nodup_cons] at hnd
    obtain ⟨hkv, hrest⟩ := hnd
    have hstep : combine_worker G (kv :: rest) = combine_worker (combineOne G kv) rest := rfl
    rw [hstep, ih hrest]
    by_cases hk : kv.1 = k
    · subst hk
      have hrnone : alookup rest kv.1 = none :=
        alookup_eq_none_of_not_mem hkv
      rw [hrnone]
      have hw : alookup (kv :: rest) kv.1 = some kv.2 := by
        rw [alookup_cons, if_pos rfl]
      rw [hw]
      unfold combineOne
      by_cases h : (alookup G kv.1).isSome = true
      · rw [Option.isSome_iff_exists] at h
        obtain ⟨ge, hge⟩ := h
        rw [if_pos (by simp [hge]), alookup_aupdate, if_pos rfl, hge]
        simp
      · have hnone : alookup G kv.1 = none := by
          cases h1 : alookup G kv.1 with
          | some e => rw [h1] at h; simp at h
          | none => rfl
        rw [if_neg h, alookup_append_single, hnone]
        simp
    · rw [combineOne_frame G kv k hk]
      have hw : alookup (kv :: rest) k = alookup rest k := by
        rw [alookup_cons, if_neg hk]
      rw [hw]

/-- Word: merging a list of worker maps (each with duplicate-free keys)
into an initially given global map acts per key as the fold of
`mergeEntry` over the worker entries for that key, the first one inserted
unchanged. -/
theorem combine_results_lookup :
    ∀ (ws : List AMap), (∀ w ∈ ws, (w.map Prod.fst).Nodup) →
      ∀ (G0 : AMap) (k : List Nat),
        alookup (ws.foldl combine_worker G0) k =
          match alookup G0 k, entriesOf k ws with
          | some e, es => some (List.foldl mergeEntry e es)
          | none, [] => none
          | none, e :: es => some (List.foldl mergeEntry e es) := by
  intro ws
  induction ws with
  | nil =>
    intro _ G0 k
    cases h : alookup G0 k <;> simp [entriesOf, h]
  | cons w ws ih =>
    intro hnd G0 k
    have hw := hnd w (List.mem_cons_self w ws)
    have hws := fun x hx => hnd x (List.mem_cons_of_mem w hx)
    rw [List.foldl_cons, ih hws]
    have hG1 := combine_worker_lookup w hw G0 k
    have hent : entriesOf k (w :: ws) =
        match alookup w k with
        | some pe => pe :: entriesOf k ws
        | none => entriesOf k ws := by
      unfold entriesOf
      cases h : alookup w k with
      | some pe => rw [List.filterMap_cons, h]
      | none => rw [List.filterMap_cons, h]
    cases hG0 : alookup G0 k with
    | some ge =>
      cases hwk : alookup w k with
      | some pe =>
        rw [hG0, hwk] at hG1
        simp only [] at hG1
        rw [hG1, hent, hwk]
        rfl
      | none =>
        rw [hG0, hwk] at hG1
        simp only [] at hG1
        rw [hG1, hent, hwk]
    | none =>
      cases hwk : alookup w k with
      | some pe =>
        rw [hG0, hwk] at hG1
        simp only [] at hG1
        rw [hG1, hent, hwk]
      | none =>
        rw [hG0, hwk] at hG1
        simp only [] at hG1
        rw [hG1, hent, hwk]

/-- Word: the per-line update fold, written field by field. -/
theorem foldl_updateEntry_components :
    ∀ (vs : List F32) (e : CityEntry),
      List.foldl updateEntry e vs =
        { min := List.foldl fmin e.min vs, max := List.foldl fmax e.max vs,
          sum := List.foldl F32.add e.sum vs, count := e.count + vs.length } := by
  intro vs
  induction vs with
  | nil => intro e; simp
  | cons v vs ih =>
    intro e
    rw [List.foldl_cons, updateEntry_eq, ih]
    simp only [List.foldl_cons, List.length_cons]
    congr 1
    omega

/-- Word: the merge fold, written field by field. -/
theorem foldl_mergeEntry_components :
    ∀ (es : List CityEntry) (e : CityEntry),
      List.foldl mergeEntry e es =
        { min := List.foldl fmin e.min (es.map CityEntry.min),
          max := List.foldl fmax e.max (es.map CityEntry.max),
          sum := List.foldl F32.add e.sum (es.map CityEntry.sum),
          count := e.count + (es.map CityEntry.count).sum } := by
  intro es
  induction es with
  | nil => intro e; simp
  | cons pe es ih =>
    intro e
    rw [List.foldl_cons, mergeEntry_eq, ih]
    simp only [List.map_cons, List.foldl_cons, List.sum_cons]
    congr 1
    omega

/-- Word: the running-minimum step becomes the lattice minimum under the
embedding, for any non-NaN accumulator. -/
theorem eF_fmin (a b : F32) (ha : a.isNaN = false) : eF (fmin a b) = min (eF a) (eF b) := by
  cases a with
  | nan => simp [F32.isNaN] at ha
  | inf s =>
    cases b with
    | nan => cases s <;> simp [fmin, F32.lt, eF]
    | inf t =>
      cases s <;> cases t <;>
        simp [fmin, F32.lt, eF, min_eq_left, min_eq_right, bot_le, le_top]
    | finite qb =>
      cases s <;> simp [fmin, F32.lt, eF, min_eq_left, min_eq_right, bot_le, le_top]
  | finite qa =>
    cases b with
    | nan => simp [fmin, F32.lt, eF, min_eq_left, le_top]
    | inf t =>
      cases t <;> simp [fmin, F32.lt, eF, min_eq_left, min_eq_right, bot_le, le_top]
    | finite qb =>
      by_cases h : qb < qa
      · simp only [fmin, F32.lt, decide_eq_true_eq, if_pos h, eF]
        rw [min_eq_right]
        exact_mod_cast le_of_lt h
      · simp only [fmin, F32.lt, decide_eq_true_eq, if_neg h, eF]
        rw [min_eq_left]
        exact_mod_cast not_lt.mp h

/-- Word: the running-maximum step becomes the lattice maximum under the
dual embedding, for any non-NaN accumulator. -/
theorem eG_fmax (a b : F32) (ha : a.isNaN = false) : eG (fmax a b) = max (eG a) (eG b) := by
  cases a with
  | nan => simp [F32.isNaN] at ha
  | inf s =>
    cases b with
    | nan => cases s <;> simp [fmax, F32.lt, eG, max_eq_left, bot_le, le_top]
    | inf t =>
      cases s <;> cases t <;>
        simp [fmax, F32.lt, eG, max_eq_left, max_eq_right, bot_le, le_top]
    | finite qb =>
      cases s <;> simp [fmax, F32.lt, eG, max_eq_left, max_eq_right, bot_le, le_top]
  | finite qa =>
    cases b with
    | nan => simp [fmax, F32.lt, eG, max_eq_left, bot_le]
    | inf t =>
      cases t <;> simp [fmax, F32.lt, eG, max_eq_left, max_eq_right, bot_le, le_top]
    | finite qb =>
      by_cases h : qa < qb
      · simp only [fmax, F32.lt, decide_eq_true_eq, if_pos h, eG]
        rw [max_eq_right]
        exact_mod_cast le_of_lt h
      · simp only [fmax, F32.lt, decide_eq_true_eq, if_neg h, eG]
        rw [max_eq_left]
        exact_mod_cast not_lt.mp h

/-- Word: the minimum step never turns a non-NaN accumulator into NaN. -/
theorem fmin_isNaN (a b : F32) (ha : a.isNaN = false) : (fmin a b).isNaN = false := by
  unfold fmin
  by_cases h : F32.lt b a = true
  · rw [if_pos h]
    cases b with
    | nan => simp [F32.lt] at h
    | inf s => rfl
    | finite q => rfl
  · rw [if_neg h]; exact ha

/-- Word: nothing compares below NaN. -/
theorem F32.lt_nan (x : F32) : F32.lt x F32.nan = false := by
  cases x <;> rfl

/-- Word: the maximum step never turns a non-NaN accumulator into NaN. -/
theorem fmax_isNaN (a b : F32) (ha : a.isNaN = false) : (fmax a b).isNaN = false := by
  unfold fmax
  by_cases h : F32.lt a b = true
  · rw [if_pos h]
    cases b with
    | nan => rw [F32.lt_nan] at h; cases h
    | inf s => rfl
    | finite q => rfl
  · rw [if_neg h]; exact ha

/-- Word: the embedding is injective on non-NaN values. -/
theorem eF_injOn {a b : F32} (ha : a.isNaN = false) (hb : b.isNaN = false)
    (h : eF a = eF b) : a = b := by
  cases a with
  | nan => simp [F32.isNaN] at ha
  | inf s =>
    cases b with
    | nan => simp [F32.isNaN] at hb
    | inf t => cases s <;> cases t <;> simp_all [eF]
    | finite q => cases s <;> simp_all [eF]
  | finite qa =>
    cases b with
    | nan => simp [F32.isNaN] at hb
    | inf t => cases t <;> simp_all [eF]
    | finite qb => simp_all [eF]

/-- Word: the dual embedding is injective on non-NaN values. -/
theorem eG_injOn {a b : F32} (ha : a.isNaN = false) (hb : b.isNaN = false)
    (h : eG a = eG b) : a = b := by
  cases a with
  | nan => simp [F32.isNaN] at ha
  | inf s =>
    cases b with
    | nan => simp [F32.isNaN] at hb
    | inf t => cases s <;> cases t <;> simp_all [eG]
    | finite q => cases s <;> simp_all [eG]
  | finite qa =>
    cases b with
    | nan => simp [F32.isNaN] at hb
    | inf t => cases t <;> simp_all [eG]
    | finite qb => simp_all [eG]

/-- Word: the minimum fold transfers along the embedding. -/
theorem eF_foldl_fmin :
    ∀ (vs : List F32) (a : F32), a.isNaN = false →
      eF (List.foldl fmin a vs) = List.foldl min (eF a) (vs.map eF) ∧
        (List.foldl fmin a vs).isNaN = false := by
  intro vs
  induction vs with
  | nil => intro a ha; exact ⟨rfl, ha⟩
  | cons v vs ih =>
    intro a ha
    obtain ⟨h1, h2⟩ := ih (fmin a v) (fmin_isNaN a v ha)
    refine ⟨?_, h2⟩
    simp only [List.foldl_cons, List.map_cons]
    rw [h1, eF_fmin a v ha]

/-- Word: the maximum fold transfers along the dual embedding. -/
theorem eG_foldl_fmax :
    ∀ (vs : List F32) (a : F32), a.isNaN = false →
      eG (List.foldl fmax a vs) = List.foldl max (eG a) (vs.map eG) ∧
        (List.foldl fmax a vs).isNaN = false := by
  intro vs
  induction vs with
  | nil => intro a ha; exact ⟨rfl, ha⟩
  | cons v vs ih =>
    intro a ha
    obtain ⟨h1, h2⟩ := ih (fmax a v) (fmax_isNaN a v ha)
    refine ⟨?_, h2⟩
    simp only [List.foldl_cons, List.map_cons]
    rw [h1, eG_fmax a v ha]

/-- Word: a minimum fold is invariant under permutation of the folded
list. -/
theorem foldl_min_perm {β : Type} [LinearOrder β] :
    ∀ {l₁ l₂ : List β}, l₁.Perm l₂ → ∀ a : β, List.foldl min a l₁ = List.foldl min a l₂ := by
  intro l₁ l₂ p
  induction p with
  | nil => intro a; rfl
  | cons x _ ih => intro a; simp only [List.foldl_cons]; exact ih _
  | swap x y l => intro a; simp only [List.foldl_cons]; rw [min_right_comm]
  | trans _ _ ih1 ih2 => intro a; rw [ih1 a, ih2 a]

/-- Word: a maximum fold is invariant under permutation of the folded
list. -/
theorem foldl_max_perm {β : Type} [LinearOrder β] :
    ∀ {l₁ l₂ : List β}, l₁.Perm l₂ → ∀ a : β, List.foldl max a l₁ = List.foldl max a l₂ := by
  intro l₁ l₂ p
  induction p with
  | nil => intro a; rfl
  | cons x _ ih => intro a; simp only [List.foldl_cons]; exact ih _
  | swap x y l => intro a; simp only [List.foldl_cons]; rw [max_assoc, max_comm y x, ← max_assoc]
  | trans _ _ ih1 ih2 => intro a; rw [ih1 a, ih2 a]

/-- Word: pulling the left argument of the seed out of a minimum fold. -/
theorem foldl_min_pull {β : Type} [LinearOrder β] :
    ∀ (l : List β) (a b : β), List.foldl min (min a b) l = min a (List.foldl min b l) := by
  intro l
  induction l with
  | nil => intro a b; rfl
  | cons c l ih =>
    intro a b
    simp only [List.foldl_cons]
    rw [min_assoc, ih]

/-- Word: pulling the left argument of the seed out of a maximum fold. -/
theorem foldl_max_pull {β : Type} [LinearOrder β] :
    ∀ (l : List β) (a b : β), List.foldl max (max a b) l = max a (List.foldl max b l) := by
  intro l
  induction l with
  | nil => intro a b; rfl
  | cons c l ih =>
    intro a b
    simp only [List.foldl_cons]
    rw [max_assoc, ih]

/-- Word: a minimum fold never exceeds its seed. -/
theorem foldl_min_le_seed {β : Type} [LinearOrder β] (l : List β) (a : β) :
    List.foldl min a l ≤ a := by
  have h := foldl_min_pull l a a
  rw [min_self] at h
  rw [h]
  exact min_le_left _ _

/-- Word: a maximum fold never drops below its seed. -/
theorem le_foldl_max_seed {β : Type} [LinearOrder β] (l : List β) (a : β) :
    a ≤ List.foldl max a l := by
  have h := foldl_max_pull l a a
  rw [max_self] at h
  rw [h]
  exact le_max_left _ _

/-- Word: two minimum folds from the same seed merge into one fold over
the concatenation: the duplicated seed collapses because the minimum is
idempotent. -/
theorem min_foldl_merge {β : Type} [LinearOrder β] (e : β) (u v : List β) :
    min (List.foldl min e u) (List.foldl min e v) = List.foldl min e (u ++ v) := by
  rw [List.foldl_append]
  rw [show List.foldl min e v = List.foldl min e v from rfl]
  have h1 : min (List.foldl min e u) e = List.foldl min e u :=
    min_eq_left (foldl_min_le_seed u e)
  calc min (List.foldl min e u) (List.foldl min e v)
      = List.foldl min (min (List.foldl min e u) e) v := (foldl_min_pull v _ e).symm
    _ = List.foldl min (List.foldl min e u) v := by rw [h1]

/-- Word: dual merge for maximum folds. -/
theorem max_foldl_merge {β : Type} [LinearOrder β] (e : β) (u v : List β) :
    max (List.foldl max e u) (List.foldl max e v) = List.foldl max e (u ++ v) := by
  rw [List.foldl_append]
  have h1 : max (List.foldl max e u) e = List.foldl max e u :=
    max_eq_left (le_foldl_max_seed u e)
  calc max (List.foldl max e u) (List.foldl max e v)
      = List.foldl max (max (List.foldl max e u) e) v := (foldl_max_pull v _ e).symm
    _ = List.foldl max (List.foldl max e u) v := by rw [h1]

/-- Word: a fold of per-group minimum folds, all seeded from the same
element, collapses into one minimum fold over the flattened groups. -/
theorem foldl_min_collapse {β : Type} [LinearOrder β] (e : β) :
    ∀ (ws : List (List β)) (u : List β),
      List.foldl min (List.foldl min e u) (ws.map (List.foldl min e)) =
        List.foldl min e (u ++ ws.flatten) := by
  intro ws
  induction ws with
  | nil => intro u; simp
  | cons v ws ih =>
    intro u
    simp only [List.map_cons, List.foldl_cons, List.flatten_cons]
    rw [min_foldl_merge, ih (u ++ v), List.append_assoc]

/-- Word: dual collapse for maximum folds. -/
theorem foldl_max_collapse {β : Type} [LinearOrder β] (e : β) :
    ∀ (ws : List (List β)) (u : List β),
      List.foldl max (List.foldl max e u) (ws.map (List.foldl max e)) =
        List.foldl max e (u ++ ws.flatten) := by
  intro ws
  induction ws with
  | nil => intro u; simp
  | cons v ws ih =>
    intro u
    simp only [List.map_cons, List.foldl_cons, List.flatten_cons]
    rw [max_foldl_merge, ih (u ++ v), List.append_assoc]

/-- Word: dropping empty groups does not change the flattening. -/
theorem flatten_filter_ne_nil {β : Type} [DecidableEq β] :
    ∀ (l : List (List β)), (l.filter (fun x => decide (x ≠ []))).flatten = l.flatten := by
  intro l
  induction l with
  | nil => rfl
  | cons x l ih =>
    rw [List.filter_cons]
    by_cases hx : x = []
    · subst hx
      rw [if_neg (by simp), ih]
      simp
    · rw [if_pos (by simp [hx]), List.flatten_cons, List.flatten_cons, ih]

/-- Word: the values of a key over concatenated worker line lists are the
concatenation of the per-worker values. -/
theorem valsOf_flatten (k : List Nat) :
    ∀ (P : List (List (List Nat))), valsOf k P.flatten = (P.map (valsOf k)).flatten := by
  intro P
  induction P with
  | nil => rfl
  | cons ls P ih => simp [List.flatten_cons, valsOf_append, ih]

/-- Word: spawning the workers on parseable lines succeeds, yields maps
with duplicate-free keys, and the per-key worker entries are exactly one
default-seeded update fold per worker whose line list mentions the key. -/
theorem mapM_workers :
    ∀ (P : List (List (List Nat))), (∀ l ∈ P.flatten, (parseLine l).isSome = true) →
      ∃ ms, P.mapM worker_on_lines = some ms ∧
        (∀ m ∈ ms, (m.map Prod.fst).Nodup) ∧
        ∀ k, entriesOf k ms =
          ((P.map (valsOf k)).filter (fun vs => decide (vs ≠ []))).map
            (fun vs => List.foldl updateEntry CityEntry.default vs) := by
  intro P
  induction P with
  | nil =>
    intro _
    exact ⟨[], rfl, by simp, fun k => rfl⟩
  | cons ls P ih =>
    intro hp
    have hls : ∀ l ∈ ls, (parseLine l).isSome = true := fun l hl =>
      hp l (by rw [List.flatten_cons]; exact List.mem_append.mpr (Or.inl hl))
    obtain ⟨m, hm, hchar⟩ := process_fold_lookup ls [] hls
    obtain ⟨ms, hms, hnd, hent⟩ := ih (fun l hl =>
      hp l (by rw [List.flatten_cons]; exact List.mem_append.mpr (Or.inr hl)))
    refine ⟨m :: ms, ?_, ?_, ?_⟩
    · rw [List.mapM_cons, show worker_on_lines ls = some m from hm, hms]
      rfl
    · intro x hx
      rcases List.mem_cons.mp hx with hx | hx
      · rw [hx]
        exact process_fold_nodup ls [] m hm (by simp)
      · exact hnd x hx
    · intro k
      have hmk : alookup m k =
          if valsOf k ls = [] then none
          else some (List.foldl updateEntry CityEntry.default (valsOf k ls)) := hchar k
      show List.filterMap (fun w => alookup w k) (m :: ms) = _
      rw [List.filterMap_cons]
      simp only [List.map_cons, List.filter_cons]
      by_cases hv : valsOf k ls = []
      · rw [hmk, if_pos hv]
        rw [if_neg (by simp [hv])]
        exact hent k
      · rw [hmk, if_neg hv]
        rw [if_pos (by simp [hv])]
        rw [List.map_cons]
        exact congrArg (List.cons _) (hent k)

/-- Word: length of a flattening is the sum of the group lengths. -/
theorem length_flatten_eq {α : Type} : ∀ (L : List (List α)),
    L.flatten.length = (L.map List.length).sum := by
  intro L
  induction L with
  | nil => rfl
  | cons x L ih => simp [List.flatten_cons, ih]

/-- Word: mapping over a flattening flattens the mapped groups. -/
theorem map_flatten_eq {α β : Type} (f : α → β) : ∀ (L : List (List α)),
    L.flatten.map f = (L.map (List.map f)).flatten := by
  intro L
  induction L with
  | nil => rfl
  | cons x L ih => simp [List.flatten_cons, ih]

/-- Word: the merged entry's count is the total number of values, and its
min and max are non-NaN and embed to the one-pass minimum and maximum
folds over all the values, independent of the grouping. -/
theorem mergedOf_char (vs1 : List F32) (rest : List (List F32)) :
    (mergedOf vs1 rest).count = (vs1 ++ rest.flatten).length ∧
    (mergedOf vs1 rest).min.isNaN = false ∧
    (mergedOf vs1 rest).max.isNaN = false ∧
    eF (mergedOf vs1 rest).min =
      List.foldl min (eF (F32.finite 0)) ((vs1 ++ rest.flatten).map eF) ∧
    eG (mergedOf vs1 rest).max =
      List.foldl max (eG (F32.finite 0)) ((vs1 ++ rest.flatten).map eG) := by
  have hf : ∀ vs : List F32, List.foldl updateEntry CityEntry.default vs =
      { min := List.foldl fmin (F32.finite 0) vs, max := List.foldl fmax (F32.finite 0) vs,
        sum := List.foldl F32.add (F32.finite 0) vs, count := vs.length } := by
    intro vs
    rw [foldl_updateEntry_components]
    simp [CityEntry.default]
  have hE : mergedOf vs1 rest =
      { min := List.foldl fmin (List.foldl fmin (F32.finite 0) vs1)
          (rest.map (fun vs => List.foldl fmin (F32.finite 0) vs)),
        max := List.foldl fmax (List.foldl fmax (F32.finite 0) vs1)
          (rest.map (fun vs => List.foldl fmax (F32.finite 0) vs)),
        sum := List.foldl F32.add (List.foldl F32.add (F32.finite 0) vs1)
          (rest.map (fun vs => List.foldl F32.add (F32.finite 0) vs)),
        count := vs1.length + (rest.map List.length).sum } := by
    unfold mergedOf
    rw [foldl_mergeEntry_components, hf vs1]
    congr 1
    · exact congrArg (List.foldl fmin _)
        (by rw [List.map_map]; exact List.map_congr_left (fun a _ => by simp [hf a]))
    · exact congrArg (List.foldl fmax _)
        (by rw [List.map_map]; exact List.map_congr_left (fun a _ => by simp [hf a]))
    · exact congrArg (List.foldl F32.add _)
        (by rw [List.map_map]; exact List.map_congr_left (fun a _ => by simp [hf a]))
    · exact congrArg (fun t => vs1.length + List.sum t)
        (by rw [List.map_map]; exact List.map_congr_left (fun a _ => by simp [hf a]))
  have hmin := eF_foldl_fmin (rest.map (fun vs => List.foldl fmin (F32.finite 0) vs))
      (List.foldl fmin (F32.finite 0) vs1) (eF_foldl_fmin vs1 (F32.finite 0) rfl).2
  have hmax := eG_foldl_fmax (rest.map (fun vs => List.foldl fmax (F32.finite 0) vs))
      (List.foldl fmax (F32.finite 0) vs1) (eG_foldl_fmax vs1 (F32.finite 0) rfl).2
  refine ⟨?_, ?_, ?_, ?_, ?_⟩
  · rw [hE]
    dsimp only
    rw [List.length_append, length_flatten_eq]
  · rw [hE]
    exact hmin.2
  · rw [hE]
    exact hmax.2
  · rw [hE]
    dsimp only
    rw [hmin.1, (eF_foldl_fmin vs1 (F32.finite 0) rfl).1]
    have hml : (rest.map (fun vs => List.foldl fmin (F32.finite 0) vs)).map eF
        = (rest.map (List.map eF)).map (List.foldl min (eF (F32.finite 0))) := by
      rw [List.map_map, List.map_map]
      exact List.map_congr_left (fun a _ => by
        simp only [Function.comp_apply]
        exact (eF_foldl_fmin a (F32.finite 0) rfl).1)
    rw [hml, foldl_min_collapse, ← map_flatten_eq, ← List.map_append]
  · rw [hE]
    dsimp only
    rw [hmax.1, (eG_foldl_fmax vs1 (F32.finite 0) rfl).1]
    have hml : (rest.map (fun vs => List.foldl fmax (F32.finite 0) vs)).map eG
        = (rest.map (List.map eG)).map (List.foldl max (eG (F32.finite 0))) := by
      rw [List.map_map, List.map_map]
      exact List.map_congr_left (fun a _ => by
        simp only [Function.comp_apply]
        exact (eG_foldl_fmax a (F32.finite 0) rfl).1)
    rw [hml, foldl_max_collapse, ← map_flatten_eq, ← List.map_append]

/-- Word: for any distribution of parseable lines among workers, the run
succeeds and every key's global entry has the total line count of that
key, and non-NaN min and max that embed to one-pass folds over all of the
key's values in line order; a key is absent exactly when no line carries
it. -/
theorem run_partition_char (P : List (List (List Nat)))
    (hp : ∀ l ∈ P.flatten, (parseLine l).isSome = true) :
    ∃ G, run_line_partition P = some G ∧
      ∀ k,
        (alookup G k = none ↔ valsOf k P.flatten = []) ∧
        ∀ e, alookup G k = some e →
          e.count = (valsOf k P.flatten).length ∧
          e.min.isNaN = false ∧ e.max.isNaN = false ∧
          eF e.min = List.foldl min (eF (F32.finite 0)) ((valsOf k P.flatten).map eF) ∧
          eG e.max = List.foldl max (eG (F32.finite 0)) ((valsOf k P.flatten).map eG) := by
  obtain ⟨ms, hms, hnd, hent⟩ := mapM_workers P hp
  refine ⟨combine_results ms, ?_, ?_⟩
  · unfold run_line_partition
    rw [hms]
    rfl
  · intro k
    have hG : alookup (combine_results ms) k =
        match (none : Option CityEntry), entriesOf k ms with
        | some e, es => some (List.foldl mergeEntry e es)
        | none, [] => none
        | none, e :: es => some (List.foldl mergeEntry e es) :=
      combine_results_lookup ms hnd [] k
    rw [hent k] at hG
    have hflat : ((P.map (valsOf k)).filter (fun vs => decide (vs ≠ []))).flatten
        = valsOf k P.flatten := by
      rw [flatten_filter_ne_nil, ← valsOf_flatten]
    rcases hq : (P.map (valsOf k)).filter (fun vs => decide (vs ≠ [])) with _ | ⟨vs1, rest⟩
    · rw [hq] at hG hflat
      simp only [List.map_nil] at hG
      have hGn : alookup (combine_results ms) k = none := hG
      refine ⟨⟨fun _ => hflat.symm, fun _ => hGn⟩, ?_⟩
      intro e he
      rw [hGn] at he
      exact absurd he (by simp)
    · rw [hq] at hG hflat
      rw [List.map_cons] at hG
      have hGs : alookup (combine_results ms) k = some (mergedOf vs1 rest) := hG
      have hvs1 : vs1 ≠ [] := by
        have hmem : vs1 ∈ (P.map (valsOf k)).filter (fun vs => decide (vs ≠ [])) := by
          rw [hq]
          exact List.mem_cons_self _ _
        simpa using List.of_mem_filter hmem
      have hfl2 : vs1 ++ rest.flatten = valsOf k P.flatten := hflat
      obtain ⟨hcnt, hminN, hmaxN, hminE, hmaxE⟩ := mergedOf_char vs1 rest
      refine ⟨⟨?_, ?_⟩, ?_⟩
      · intro h0
        rw [hGs] at h0
        exact absurd h0 (by simp)
      · intro hv
        exfalso
        rw [← hfl2] at hv
        exact hvs1 (List.append_eq_nil.mp hv).1
      · intro e he
        rw [hGs] at he
        obtain rfl := Option.some.inj he
        rw [← hfl2]
        exact ⟨hcnt, hminN, hmaxN, hminE, hmaxE⟩

/-- C4-counterexample.  The same three lines `a;16777216`, `a;1`, `a;1`
given to one worker, or split after the first line between two workers,
produce different final maps: `f32` addition is not associative
(`(2^24 + 1) + 1` rounds to `2^24` but `2^24 + (1 + 1)` is exact), so the
accumulated sum — and hence the GlobalResult — depends on the
partitioning, refuting the claim that it never does. -/
theorem merge_partition_cex :
    ([[str2bytes ("a;16777216"), str2bytes ("a;1"), str2bytes ("a;1")]] :
        List (List (List Nat))).flatten =
      ([[str2bytes ("a;16777216")], [str2bytes ("a;1"), str2bytes ("a;1")]] :
        List (List (List Nat))).flatten ∧
    run_line_partition [[str2bytes ("a;16777216"), str2bytes ("a;1"), str2bytes ("a;1")]] ≠
      run_line_partition [[str2bytes ("a;16777216")], [str2bytes ("a;1"), str2bytes ("a;1")]] := by
  refine ⟨by decide, ?_⟩
  have h1 : run_line_partition
      [[str2bytes ("a;16777216"), str2bytes ("a;1"), str2bytes ("a;1")]] =
      some [(str2bytes ("a"),
        { min := F32.finite 0, max := F32.finite 16777216,
          sum := F32.finite 16777216, count := 3 })] := by with_unfolding_all rfl
  have h2 : run_line_partition
      [[str2bytes ("a;16777216")], [str2bytes ("a;1"), str2bytes ("a;1")]] =
      some [(str2bytes ("a"),
        { min := F32.finite 0, max := F32.finite 16777216,
          sum := F32.finite 16777218, count := 3 })] := by with_unfolding_all rfl
  rw [h1, h2]
  intro h
  have h3 := Option.some.inj h
  simp only [List.cons.injEq, Prod.mk.injEq, CityEntry.mk.injEq, F32.finite.injEq] at h3
  have h4 : (16777216 : ℚ) = 16777218 := h3.1.2.2.2.1
  norm_num at h4

/-- C4 (amended).  For a fixed multiset of parseable input lines, the
count, minimum and maximum of every key in the final global map are
identical regardless of how the lines are partitioned among workers and
in which order the workers' partial maps are merged; the claim's stronger
statement — that the whole GlobalResult is identical — fails for the sum
field (see the counterexample): `f32` addition is not associative. -/
theorem merge_partition_invariant (P Q : List (List (List Nat)))
    (hperm : P.flatten.Perm Q.flatten)
    (hp : ∀ l ∈ P.flatten, (parseLine l).isSome = true) :
    ∃ G1 G2, run_line_partition P = some G1 ∧ run_line_partition Q = some G2 ∧
      ∀ k, (alookup G1 k).map (fun e => (e.count, e.min, e.max)) =
        (alookup G2 k).map (fun e => (e.count, e.min, e.max)) := by
  have hpq : ∀ l ∈ Q.flatten, (parseLine l).isSome = true := fun l hl =>
    hp l (hperm.mem_iff.mpr hl)
  obtain ⟨G1, hG1, hchar1⟩ := run_partition_char P hp
  obtain ⟨G2, hG2, hchar2⟩ := run_partition_char Q hpq
  refine ⟨G1, G2, hG1, hG2, ?_⟩
  intro k
  have hvk : (valsOf k P.flatten).Perm (valsOf k Q.flatten) :=
    ((hperm.filterMap parseLine).filter _).map _
  obtain ⟨hn1, hs1⟩ := hchar1 k
  obtain ⟨hn2, hs2⟩ := hchar2 k
  cases h1 : alookup G1 k with
  | none =>
    have hp0 : valsOf k P.flatten = [] := hn1.mp h1
    have hq0 : valsOf k Q.flatten = [] := by
      have h' := hvk
      rw [hp0] at h'
      exact h'.symm.eq_nil
    rw [hn2.mpr hq0]
  | some e1 =>
    cases h2 : alookup G2 k with
    | none =>
      have hq0 : valsOf k Q.flatten = [] := hn2.mp h2
      have hp0 : valsOf k P.flatten = [] := by
        have h' := hvk
        rw [hq0] at h'
        exact h'.eq_nil
      rw [hn1.mpr hp0] at h1
      exact absurd h1 (by simp)
    | some e2 =>
      obtain ⟨hc1, hm1N, hx1N, hm1E, hx1E⟩ := hs1 e1 h1
      obtain ⟨hc2, hm2N, hx2N, hm2E, hx2E⟩ := hs2 e2 h2
      have hcount : e1.count = e2.count := by rw [hc1, hc2, hvk.length_eq]
      have hmin : e1.min = e2.min := eF_injOn hm1N hm2N (by
        rw [hm1E, hm2E]
        exact foldl_min_perm (hvk.map eF) _)
      have hmax : e1.max = e2.max := eG_injOn hx1N hx2N (by
        rw [hx1E, hx2E]
        exact foldl_max_perm (hvk.map eG) _)
      simp [hcount, hmin, hmax]

/-- Word: witness instantiating the partition-invariance theorem on two
concrete partitions of a two-line file. -/
theorem merge_partition_invariant_witness :
    ∃ G1 G2,
      run_line_partition [[str2bytes ("b;1.5"), str2bytes ("c;2.5")]] = some G1 ∧
      run_line_partition [[str2bytes ("c;2.5")], [str2bytes ("b;1.5")]] = some G2 ∧
      ∀ k, (alookup G1 k).map (fun e => (e.count, e.min, e.max)) =
        (alookup G2 k).map (fun e => (e.count, e.min, e.max)) :=
  merge_partition_invariant
    [[str2bytes ("b;1.5"), str2bytes ("c;2.5")]]
    [[str2bytes ("c;2.5")], [str2bytes ("b;1.5")]]
    (by decide) (by with_unfolding_all decide)

/-- C9.  For every parseable input file and every partition of its lines
among workers, each key's accumulator in the final global map counts
exactly the input lines whose key field is that key. -/
theorem count_matches_lines (P : List (List (List Nat))) (L : List (List Nat))
    (hperm : P.flatten.Perm L)
    (hp : ∀ l ∈ L, (parseLine l).isSome = true) :
    ∃ G, run_line_partition P = some G ∧
      ∀ k e, alookup G k = some e →
        e.count = ((L.filterMap parseLine).filter (fun cv => cv.1 = k)).length := by
  have hp' : ∀ l ∈ P.flatten, (parseLine l).isSome = true := fun l hl =>
    hp l (hperm.subset hl)
  obtain ⟨G, hG, hchar⟩ := run_partition_char P hp'
  refine ⟨G, hG, ?_⟩
  intro k e he
  obtain ⟨hc, _⟩ := (hchar k).2 e he
  rw [hc]
  unfold valsOf
  rw [List.length_map]
  exact ((hperm.filterMap parseLine).filter _).length_eq

/-- Word: witness instantiating the count theorem on a three-line file
split between two workers. -/
theorem count_matches_lines_witness :
    ∃ G, run_line_partition
        [[str2bytes ("a;1.0"), str2bytes ("b;2.0")], [str2bytes ("a;3.0")]] = some G ∧
      ∀ k e, alookup G k = some e →
        e.count = (([str2bytes ("a;1.0"), str2bytes ("b;2.0"),
          str2bytes ("a;3.0")].filterMap parseLine).filter (fun cv => cv.1 = k)).length :=
  count_matches_lines
    [[str2bytes ("a;1.0"), str2bytes ("b;2.0")], [str2bytes ("a;3.0")]]
    [str2bytes ("a;1.0"), str2bytes ("b;2.0"), str2bytes ("a;3.0")]
    (by decide) (by with_unfolding_all decide)
